import Mathlib

/-!
Verification of the block-oriented file system simulator
(`memory_system.py` and `file_system.py`).

The Python source is embedded shallowly:

* byte strings become `List Nat` (`Bytes`);
* a block-index range `(start, end)` becomes `Range := Nat × Nat`;
* `MemorySystem.memory` (a Python list of `bytes | None`) becomes
  `List (Option Bytes)`;
* the file table (a Python `dict[str, list[tuple[int, int]]]`) becomes an
  association list `List (String × List Range)` with `dict.get`,
  `dict.update` and `dict.pop` modelled by first-occurrence lookup,
  replace-or-append and remove;
* Python truthiness is modelled explicitly: an integer is falsy exactly
  when it is `0`, a list or byte string exactly when it is empty,
  `None` is falsy;
* a Python exception (failed `assert`, `pop` from an empty list, or a
  `TypeError` from `data += 1`) is modelled by `Option`/an `err` result.

The call sites in `file_system.py` use snake_case names
(`fill_block`, `get_block`, `empty_block`) for the camelCase methods
defined in `memory_system.py` (`fillBlock`, `getBlock`, `emptyBlock`);
the two are identified here, following the intended binding.
`math.ceil(len(data) / block_size)` is modelled as exact natural-number
ceiling division (the float detour is ignored); it is only ever used
with `block_size ≥ 1`.
-/

/-- Byte strings are modelled as lists of naturals. -/
abbrev Bytes := List Nat

/-- A block-index range `(start, end)`, half open, as the Python tuples. -/
abbrev Range := Nat × Nat

/-- The length of a range: `end - start` (Python `r[1] - r[0]`). -/
def rsize (r : Range) : Nat := r.2 - r.1

/-- Python `range(a, b)`: the list of indices `a, a+1, …, b-1`. -/
def pyRange (a b : Nat) : List Nat := List.range' a (b - a)

/-- Exact ceiling division, modelling `math.ceil(L / bs)` for `bs ≥ 1`. -/
def pyCeilDiv (L bs : Nat) : Nat := (L + bs - 1) / bs

/-- The simulated memory: `MemorySystem.__init__` of `memory_system.py`. -/
structure MemorySystem where
  block_size : Nat
  memory_size : Nat
  memory : List (Option Bytes)
deriving DecidableEq

/-- Source `MemorySystem.validIndex`: `0 ≤ index < memory_size` (indices
are naturals here, so only the upper bound remains). -/
def MemorySystem.validIndex (m : MemorySystem) (index : Nat) : Bool :=
  decide (index < m.memory_size)

/-- Source `MemorySystem.fillBlock`: returns the Python status code
(`1` invalid index, `2` oversized payload, `0` success) together with
the updated memory system. -/
def MemorySystem.fillBlock (m : MemorySystem) (index : Nat) (data : Bytes) :
    Nat × MemorySystem :=
  if !m.validIndex index then (1, m)
  else if List.length data > m.block_size then (2, m)
  else (0, { m with memory := m.memory.set index (some data) })

/-- Source `MemorySystem.getBlock`: `.inl 1` models returning the integer
error code `1` on an invalid index, `.inr` the stored slot. -/
def MemorySystem.getBlock (m : MemorySystem) (index : Nat) :
    Sum Nat (Option Bytes) :=
  if !m.validIndex index then .inl 1
  else .inr (m.memory.getD index none)

/-- Source `MemorySystem.emptyBlock`: returns the status code
(`1` invalid index, `0` success) with the updated memory system. -/
def MemorySystem.emptyBlock (m : MemorySystem) (index : Nat) :
    Nat × MemorySystem :=
  if !m.validIndex index then (1, m)
  else (0, { m with memory := m.memory.set index none })

/-- The file system state: `FileSystem.__init__` of `file_system.py`. -/
structure FileSystem where
  ms : MemorySystem
  free_blocks : List Range
  file_table : List (String × List Range)
deriving DecidableEq

/-- Source `FileSystem.__init__`: all of memory is one free range
`(0, memory_size)` and the file table is empty. -/
def FileSystem.init (block_size memory_size : Nat) : FileSystem :=
  { ms := { block_size := block_size, memory_size := memory_size,
            memory := List.replicate memory_size none },
    free_blocks := [(0, memory_size)],
    file_table := [] }

/-- Python `dict.get`: first entry with the given key, if any. -/
def tableGet (t : List (String × List Range)) (k : String) :
    Option (List Range) :=
  match t.find? (fun e => e.1 == k) with
  | none => none
  | some e => some e.2

/-- Python truthiness of `dict.get`'s result: `None` and the empty list
are falsy, a non-empty list is truthy. -/
def truthy : Option (List Range) → Bool
  | none => false
  | some l => !l.isEmpty

/-- Python `dict.update([(k, v)])`: replace the entry for `k` in place,
or append a new one. -/
def tableUpdate : List (String × List Range) → String → List Range →
    List (String × List Range)
  | [], k, v => [(k, v)]
  | e :: rest, k, v =>
      if e.1 = k then (k, v) :: rest else e :: tableUpdate rest k v

/-- Python `dict.pop(k)`: remove the entry for `k`. -/
def tablePop : List (String × List Range) → String →
    List (String × List Range)
  | [], _ => []
  | e :: rest, k => if e.1 = k then rest else e :: tablePop rest k

/-- Flattening a list of ranges into the list of their block indices, in
range order then block order — the iteration order of the nested `for`
loops of `__get_blocks` and `__empty_blocks`. -/
def flattenRanges : List Range → List Nat
  | [] => []
  | r :: rest => pyRange r.1 r.2 ++ flattenRanges rest

/-- Inner loop of `FileSystem.__store_blocks` over the indices of the
block range (`r0` is `block_range[0]`, kept for the returned tuple):
fill the next block with the next `block_size` bytes, and return the
consumed sub-range `(r0, block + 1)` as soon as the data is exhausted;
if the range ends first, return the leftover bytes. -/
def FileSystem.storeBlocksAux (ms : MemorySystem) (r0 : Nat) :
    List Nat → Bytes → MemorySystem × Sum Range Bytes
  | [], data => (ms, .inr data)
  | i :: rest, data =>
      let p := ms.fillBlock i (List.take ms.block_size data)
      let data' := List.drop ms.block_size data
      if data'.isEmpty then (p.2, .inl (r0, i + 1))
      else FileSystem.storeBlocksAux p.2 r0 rest data'

/-- Source `FileSystem.__store_blocks`. -/
def FileSystem.storeBlocks (ms : MemorySystem) (data : Bytes)
    (block_range : Range) : MemorySystem × Sum Range Bytes :=
  FileSystem.storeBlocksAux ms block_range.1
    (pyRange block_range.1 block_range.2) data

/-- Source `FileSystem.__check_space`: iterate over the reversed free
list, subtracting range sizes (Python integers, so the running count may
go negative) and short-circuiting `True`; `False` if the list runs out. -/
def checkSpaceGo : List Range → Int → Bool
  | [], _ => false
  | r :: rest, n =>
      let n' := n - ((r.2 : Int) - (r.1 : Int))
      if n' ≤ 0 then true else checkSpaceGo rest n'

/-- Source `FileSystem.__check_space` (the `reversed(...)` iteration). -/
def FileSystem.checkSpace (free : List Range) (num_blocks : Int) : Bool :=
  checkSpaceGo free.reverse num_blocks

/-- Source `FileSystem.__sort_free_blocks`: Python's stable `list.sort`
with key `end - start`, modelled by a stable left-to-right insertion
sort (an element is inserted after all elements of size at most its
own, which is exactly the stable ascending order). -/
def insertBySize (r : Range) : List Range → List Range
  | [] => [r]
  | s :: rest =>
      if rsize r < rsize s then r :: s :: rest else s :: insertBySize r rest

/-- The sorted free list (`__sort_free_blocks`). -/
def sortFree (l : List Range) : List Range :=
  l.foldl (fun acc r => insertBySize r acc) []

/-- The `while num_blocks != 0` loop of `FileSystem.store_file`.
Returns `none` when the Python code would raise: a failed
`assert isinstance(...)`, or `pop()` on an empty free list.  In the
first-fit branch the source sets `num_blocks = 0` and breaks, so the
loop exits at once and the updated state is returned directly. -/
def FileSystem.storeLoopGo :
    Nat → MemorySystem → List Range → Bytes → Nat → List Range →
    Option (MemorySystem × List Range × List Range)
  | 0, _, _, _, _, _ => none
  | fuel + 1, ms, free, data, num_blocks, blocks_used =>
    if num_blocks = 0 then some (ms, free, blocks_used)
    else
      match free.find? (fun fb => decide (num_blocks ≤ fb.2 - fb.1)) with
      | some fb =>
          match FileSystem.storeBlocks ms data fb with
          | (ms', .inl result) =>
              some (ms',
                (free.erase fb) ++
                  (if fb.2 ≠ result.2 then [(result.2, fb.2)] else []),
                blocks_used ++ [result])
          | (_, .inr _) => none
      | none =>
          if hfree : free = [] then none
          else
            match FileSystem.storeBlocks ms data (free.getLast hfree) with
            | (_, .inl _) => none
            | (ms', .inr rest) =>
                FileSystem.storeLoopGo fuel ms' free.dropLast rest
                  (pyCeilDiv (List.length rest) ms'.block_size)
                  (blocks_used ++ [free.getLast hfree])

/-- The store loop entered with fuel `free.length + 1`.  The fuel is an
embedding artifact for structural recursion: the loop removes one free
range from the list on every iteration that continues (the fallback
`pop`), so the fuel can never be exhausted — the `fuel = 0` branch is
unreachable from here (`storeLoopGo` recurses with fuel
`free.dropLast.length + 1 = free.length`, exactly the invariant
shape). -/
def FileSystem.storeLoop (ms : MemorySystem) (free : List Range)
    (data : Bytes) (num_blocks : Nat) (blocks_used : List Range) :
    Option (MemorySystem × List Range × List Range) :=
  FileSystem.storeLoopGo (free.length + 1) ms free data num_blocks
    blocks_used

/-- Source `FileSystem.store_file`.  `none` models a raised exception
inside the store loop; `some (b, fs')` models returning `b` with the
file system left in state `fs'`. -/
def FileSystem.store_file (fs : FileSystem) (file_data : Bytes)
    (file_name : String) : Option (Bool × FileSystem) :=
  if truthy (tableGet fs.file_table file_name) then some (false, fs)
  else
    let num_blocks := pyCeilDiv (List.length file_data) fs.ms.block_size
    if !FileSystem.checkSpace fs.free_blocks (num_blocks : Int) then
      some (false, fs)
    else
      match FileSystem.storeLoop fs.ms fs.free_blocks file_data num_blocks []
        with
      | none => none
      | some (ms', free', blocks_used) =>
          some (true,
            { ms := ms',
              free_blocks := sortFree free',
              file_table := tableUpdate fs.file_table file_name blocks_used })

/-- Result of `get_file` / `__get_blocks`: `err` models the `TypeError`
raised by `data += 1` after `get_block` returns the integer `1`;
`failure` models returning `False`; `ok` models returning the bytes. -/
inductive GetResult
  | err
  | failure
  | ok (data : Bytes)
deriving DecidableEq

/-- Source `FileSystem.__get_blocks`, flattened over the block indices:
a falsy read (`None` or `b""`) fails the whole call. -/
def FileSystem.getBlocksGo (ms : MemorySystem) :
    List Nat → Bytes → GetResult
  | [], data => .ok data
  | i :: rest, data =>
      match ms.getBlock i with
      | .inl _ => .err
      | .inr none => .failure
      | .inr (some b) =>
          if b.isEmpty then .failure
          else FileSystem.getBlocksGo ms rest (data ++ b)

/-- Source `FileSystem.get_file`: a falsy table entry (missing, or the
empty range list) returns `False`. -/
def FileSystem.get_file (fs : FileSystem) (file_name : String) : GetResult :=
  match tableGet fs.file_table file_name with
  | none => .failure
  | some file_blocks =>
      if file_blocks.isEmpty then .failure
      else FileSystem.getBlocksGo fs.ms (flattenRanges file_blocks) []

/-- Source `FileSystem.__empty_blocks`, flattened over the block
indices.  The source checks `if not result` on `empty_block`'s status
code, and `0` — the success code — is the falsy integer, so the loop
returns `False` right after the first successful clear and only ever
continues past a block whose index was invalid. -/
def FileSystem.emptyBlocksGo (ms : MemorySystem) :
    List Nat → MemorySystem × Bool
  | [] => (ms, true)
  | i :: rest =>
      let p := ms.emptyBlock i
      if p.1 = 0 then (p.2, false)
      else FileSystem.emptyBlocksGo p.2 rest

/-- The release-with-coalesce step of `delete_file`'s main loop: scan
the free list for the first range adjacent to `block_range` on either
side, merge with it, or append `block_range` unchanged (the `for`/`else`
of the source). -/
def releaseRange (free : List Range) (block_range : Range) : List Range :=
  match free.find?
      (fun fb => fb.2 == block_range.1 || fb.1 == block_range.2) with
  | some fb =>
      if fb.2 = block_range.1 then
        (free.erase fb) ++ [(fb.1, block_range.2)]
      else
        (free.erase fb) ++ [(block_range.1, fb.2)]
  | none => free ++ [block_range]

/-- Source `FileSystem.delete_file`. -/
def FileSystem.delete_file (fs : FileSystem) (file_name : String) :
    Bool × FileSystem :=
  match tableGet fs.file_table file_name with
  | none => (false, fs)
  | some file_blocks =>
      if file_blocks.isEmpty then (false, fs)
      else
        match FileSystem.emptyBlocksGo fs.ms (flattenRanges file_blocks) with
        | (ms', false) => (false, { fs with ms := ms' })
        | (ms', true) =>
            (true,
              { ms := ms',
                free_blocks :=
                  sortFree (file_blocks.foldl releaseRange fs.free_blocks),
                file_table := tablePop fs.file_table file_name })

/-- Total number of free blocks: the sum of the free ranges' sizes. -/
def sumFree (l : List Range) : Nat := (l.map rsize).sum

/-- Total number of blocks recorded in the file table. -/
def sumTable (t : List (String × List Range)) : Nat :=
  (t.map (fun e => sumFree e.2)).sum

/-- Two ranges are strictly separated: disjoint and not touching
(neither overlapping nor adjacent). -/
def Separated (r s : Range) : Prop := r.2 < s.1 ∨ s.2 < r.1

instance : DecidableRel Separated := fun r s => by
  unfold Separated; infer_instance

/-- States reachable from a freshly constructed `FileSystem` (with a
positive block size, as in the source's defaults) by any sequence of
`store_file` and `delete_file` calls. -/
inductive Reachable : FileSystem → Prop
  | init (block_size memory_size : Nat) (hbs : 1 ≤ block_size) :
      Reachable (FileSystem.init block_size memory_size)
  | store {fs fs' : FileSystem} {data : Bytes} {name : String} {b : Bool} :
      Reachable fs → FileSystem.store_file fs data name = some (b, fs') →
      Reachable fs'
  | delete {fs fs' : FileSystem} {name : String} {b : Bool} :
      Reachable fs → FileSystem.delete_file fs name = (b, fs') →
      Reachable fs'

/-- The `k`-th block-sized chunk of a payload. -/
def chunk (bs : Nat) (data : Bytes) (k : Nat) : Bytes :=
  List.take bs (List.drop (k * bs) data)

/-- The invariant maintained by every reachable file-system state:
a positive block size, a memory list of the declared size, well-formed
strictly separated free ranges, well-formed file records, and exact
accounting of free plus recorded blocks. -/
structure FsInv (fs : FileSystem) : Prop where
  hbs : 1 ≤ fs.ms.block_size
  hmemlen : fs.ms.memory.length = fs.ms.memory_size
  hfree : ∀ r ∈ fs.free_blocks,
    r.1 ≤ r.2 ∧ r.2 ≤ fs.ms.memory_size ∧
      (r.1 < r.2 ∨ fs.ms.memory_size = 0)
  hsep : fs.free_blocks.Pairwise Separated
  htable : ∀ e ∈ fs.file_table, ∀ r ∈ e.2,
    r.1 < r.2 ∧ r.2 ≤ fs.ms.memory_size
  hsum : sumFree fs.free_blocks + sumTable fs.file_table
    = fs.ms.memory_size

/-- Concrete state for the C9 witness: one stored file occupying block 0
of a two-block memory. -/
def c9fs : FileSystem :=
  { ms := { block_size := 1, memory_size := 2, memory := [some [3], none] },
    free_blocks := [(1, 2)],
    file_table := [("f", [(0, 1)])] }

/-- The C9 witness state after the failed delete: block 0 cleared. -/
def c9fs2 : FileSystem :=
  { c9fs with ms := { c9fs.ms with memory := c9fs.ms.memory.set 0 none } }


/-! ### Arithmetic facts about ceiling division -/

theorem pyCeilDiv_zero (bs : Nat) : pyCeilDiv 0 bs = 0 := by
  unfold pyCeilDiv
  cases bs with
  | zero => rfl
  | succ b => simp [Nat.div_eq_of_lt (Nat.lt_succ_of_le (Nat.le_refl b))]

theorem pyCeilDiv_of_pos {L bs : Nat} (hbs : 1 ≤ bs) (hL : 1 ≤ L) :
    pyCeilDiv L bs = (L - 1) / bs + 1 := by
  unfold pyCeilDiv
  have h1 : L + bs - 1 = (L - 1) + bs := by omega
  rw [h1, Nat.add_div_right _ hbs]

theorem pyCeilDiv_pos {L bs : Nat} (hbs : 1 ≤ bs) (hL : 1 ≤ L) :
    1 ≤ pyCeilDiv L bs := by
  rw [pyCeilDiv_of_pos hbs hL]
  exact Nat.le_add_left 1 _

theorem pyCeilDiv_eq_zero_iff {L bs : Nat} (hbs : 1 ≤ bs) :
    pyCeilDiv L bs = 0 ↔ L = 0 := by
  constructor
  · intro h
    by_contra hne
    have := pyCeilDiv_pos hbs (Nat.one_le_iff_ne_zero.mpr hne)
    omega
  · intro h; subst h; exact pyCeilDiv_zero bs

theorem pyCeilDiv_le_iff {L bs m : Nat} (hbs : 1 ≤ bs) :
    pyCeilDiv L bs ≤ m ↔ L ≤ m * bs := by
  cases Nat.eq_zero_or_pos L with
  | inl h0 =>
      subst h0
      simp [pyCeilDiv_zero]
  | inr hL =>
      rw [pyCeilDiv_of_pos hbs hL]
      have hiff : (L - 1) / bs < m ↔ L - 1 < m * bs :=
        Nat.div_lt_iff_lt_mul hbs
      constructor
      · intro h
        have h2 : (L - 1) / bs < m :=
          Nat.lt_of_lt_of_le (Nat.lt_succ_self _) h
        have h3 : L - 1 < m * bs := hiff.mp h2
        omega
      · intro h
        have h3 : L - 1 < m * bs := by omega
        exact Nat.succ_le_of_lt (hiff.mpr h3)

theorem le_pyCeilDiv_mul {L bs : Nat} (hbs : 1 ≤ bs) :
    L ≤ pyCeilDiv L bs * bs :=
  (pyCeilDiv_le_iff hbs).mp (Nat.le_refl _)

theorem pyCeilDiv_pred_mul_lt {L bs : Nat} (hbs : 1 ≤ bs) (hL : 1 ≤ L) :
    (pyCeilDiv L bs - 1) * bs < L := by
  rw [pyCeilDiv_of_pos hbs hL]
  simp only [Nat.add_sub_cancel]
  exact Nat.lt_of_le_of_lt (Nat.div_mul_le_self _ _) (by omega)

theorem pyCeilDiv_le_one_iff {L bs : Nat} (hbs : 1 ≤ bs) :
    pyCeilDiv L bs ≤ 1 ↔ L ≤ bs := by
  simpa using @pyCeilDiv_le_iff L bs 1 hbs

theorem pyCeilDiv_drop_step {L bs : Nat} (hbs : 1 ≤ bs) (hgt : bs < L) :
    pyCeilDiv (L - bs) bs = pyCeilDiv L bs - 1 := by
  rw [pyCeilDiv_of_pos hbs (by omega), pyCeilDiv_of_pos hbs (by omega)]
  have h1 : L - 1 = (L - bs - 1) + bs := by omega
  rw [h1, Nat.add_div_right _ hbs]
  rfl

/-! ### Chunks of a payload -/

theorem chunk_zero (bs : Nat) (data : Bytes) :
    chunk bs data 0 = List.take bs data := by
  simp [chunk]

theorem chunk_drop (bs : Nat) (data : Bytes) (k : Nat) :
    chunk bs (List.drop bs data) k = chunk bs data (k + 1) := by
  simp [chunk, List.drop_drop, Nat.succ_mul, Nat.add_comm]

theorem chunk_drop_mul (bs : Nat) (data : Bytes) (m k : Nat) :
    chunk bs (List.drop (m * bs) data) k = chunk bs data (m + k) := by
  simp [chunk, List.drop_drop, Nat.add_mul, Nat.add_comm]

theorem chunk_ne_nil {bs : Nat} {data : Bytes} {k : Nat} (hbs : 1 ≤ bs)
    (h : k * bs < data.length) : chunk bs data k ≠ [] := by
  have : (chunk bs data k).length ≠ 0 := by
    simp only [chunk, List.length_take, List.length_drop]
    omega
  intro hc
  exact this (by simp [hc])

theorem chunk_length_full {bs : Nat} {data : Bytes} {k : Nat}
    (h : (k + 1) * bs ≤ data.length) : (chunk bs data k).length = bs := by
  simp only [chunk, List.length_take, List.length_drop]
  have : k * bs + bs ≤ data.length := by
    calc k * bs + bs = (k + 1) * bs := by ring
    _ ≤ data.length := h
  omega

theorem chunk_last {bs : Nat} {data : Bytes} {k : Nat}
    (h : data.length ≤ (k + 1) * bs) :
    chunk bs data k = List.drop (k * bs) data := by
  apply List.take_of_length_le
  simp only [List.length_drop]
  have : (k + 1) * bs = k * bs + bs := by ring
  omega

/-! ### Ranges and their flattening -/

theorem length_pyRange (a b : Nat) : (pyRange a b).length = b - a := by
  simp [pyRange]

theorem mem_pyRange {a b i : Nat} : i ∈ pyRange a b ↔ a ≤ i ∧ i < b := by
  unfold pyRange
  rw [List.mem_range'_1]
  omega

theorem pyRange_cons {a b : Nat} (h : a < b) :
    pyRange a b = a :: pyRange (a + 1) b := by
  unfold pyRange
  have h1 : b - a = (b - (a + 1)) + 1 := by omega
  rw [h1, List.range'_succ]

theorem getD_pyRange {a b k : Nat} (h : k < b - a) :
    (pyRange a b).getD k 0 = a + k := by
  unfold pyRange
  rw [List.getD_eq_getElem?_getD, List.getElem?_range' _ _ h]
  simp

theorem mem_flattenRanges {rs : List Range} {i : Nat} :
    i ∈ flattenRanges rs ↔ ∃ r ∈ rs, r.1 ≤ i ∧ i < r.2 := by
  induction rs with
  | nil => simp [flattenRanges]
  | cons r rest ih =>
      simp only [flattenRanges, List.mem_append, ih, mem_pyRange,
        List.mem_cons]
      constructor
      · rintro (h | ⟨s, hs, h⟩)
        · exact ⟨r, Or.inl rfl, h⟩
        · exact ⟨s, Or.inr hs, h⟩
      · rintro ⟨s, (rfl | hs), h⟩
        · exact Or.inl h
        · exact Or.inr ⟨s, hs, h⟩

theorem length_flattenRanges (rs : List Range) :
    (flattenRanges rs).length = sumFree rs := by
  induction rs with
  | nil => simp [flattenRanges, sumFree]
  | cons r rest ih =>
      show (pyRange r.1 r.2 ++ flattenRanges rest).length = sumFree (r :: rest)
      rw [List.length_append, length_pyRange, ih]
      simp [sumFree, rsize]

/-! ### getD on appended and set lists -/

theorem getD_append_left {α : Type} {l₁ l₂ : List α} {k : Nat} (d : α)
    (h : k < l₁.length) : (l₁ ++ l₂).getD k d = l₁.getD k d := by
  rw [List.getD_eq_getElem?_getD, List.getD_eq_getElem?_getD,
    List.getElem?_append_left h]

theorem getD_append_right {α : Type} {l₁ l₂ : List α} {k : Nat} (d : α)
    (h : l₁.length ≤ k) :
    (l₁ ++ l₂).getD k d = l₂.getD (k - l₁.length) d := by
  rw [List.getD_eq_getElem?_getD, List.getD_eq_getElem?_getD,
    List.getElem?_append_right h]

theorem getD_set_self {α : Type} {l : List (Option α)} {i : Nat}
    {v : Option α} (h : i < l.length) : (l.set i v).getD i none = v := by
  rw [List.getD_eq_getElem?_getD, List.getElem?_set_self h]
  rfl

theorem getD_set_ne {α : Type} {l : List (Option α)} {i j : Nat}
    {v : Option α} (h : i ≠ j) :
    (l.set i v).getD j none = l.getD j none := by
  rw [List.getD_eq_getElem?_getD, List.getD_eq_getElem?_getD,
    List.getElem?_set_ne h]

theorem getD_set_none {α : Type} (l : List (Option α)) (i : Nat) :
    (l.set i none).getD i none = none := by
  rcases Nat.lt_or_ge i l.length with h | h
  · exact getD_set_self h
  · rw [List.getD_eq_getElem?_getD, List.getElem?_eq_none]
    · rfl
    · simpa using h

/-! ### Sums of range sizes -/

theorem sumFree_nil : sumFree [] = 0 := rfl

theorem sumFree_cons (r : Range) (l : List Range) :
    sumFree (r :: l) = rsize r + sumFree l := by
  simp [sumFree]

theorem sumFree_append (l₁ l₂ : List Range) :
    sumFree (l₁ ++ l₂) = sumFree l₁ + sumFree l₂ := by
  simp [sumFree]

theorem sumFree_perm {l₁ l₂ : List Range} (h : l₁.Perm l₂) :
    sumFree l₁ = sumFree l₂ :=
  (h.map rsize).sum_eq

theorem perm_cons_erase_range {r : Range} {l : List Range} (h : r ∈ l) :
    l.Perm (r :: l.erase r) := by
  induction l with
  | nil => cases h
  | cons s rest ih =>
      rw [List.erase_cons]
      by_cases hs : s = r
      · subst hs
        simp
      · have hb : (s == r) = false := by
          simp [hs]
        rw [hb]
        simp only [Bool.false_eq_true, if_false]
        have hr : r ∈ rest := by
          cases List.mem_cons.mp h with
          | inl h1 => exact absurd h1.symm hs
          | inr h2 => exact h2
        exact (List.Perm.cons s (ih hr)).trans
          (List.Perm.swap r s (rest.erase r))

theorem sumFree_erase {r : Range} {l : List Range} (h : r ∈ l) :
    rsize r + sumFree (l.erase r) = sumFree l := by
  have hp := sumFree_perm (perm_cons_erase_range h)
  rw [hp]
  simp [sumFree]

theorem sumFree_eq_zero {l : List Range}
    (h : ∀ r ∈ l, rsize r = 0) : sumFree l = 0 := by
  induction l with
  | nil => rfl
  | cons r rest ih =>
      rw [sumFree_cons, h r (List.mem_cons_self r rest),
        ih (fun s hs => h s (List.mem_cons_of_mem r hs))]

/-! ### Separation -/

theorem Separated.symm' {r s : Range} (h : Separated r s) : Separated s r :=
  h.elim Or.inr Or.inl

theorem pairwise_sep_perm {l₁ l₂ : List Range} (hp : l₁.Perm l₂) :
    l₁.Pairwise Separated ↔ l₂.Pairwise Separated :=
  List.Perm.pairwise_iff (fun h => h.symm') hp

/-! ### The sorted free list is a permutation of the input -/

theorem insertBySize_perm (r : Range) (l : List Range) :
    (insertBySize r l).Perm (r :: l) := by
  induction l with
  | nil => simp [insertBySize]
  | cons s rest ih =>
      unfold insertBySize
      by_cases h : rsize r < rsize s
      · simp [h]
      · simp only [h, if_false]
        exact (List.Perm.cons s ih).trans (List.Perm.swap r s rest)

theorem sortFree_perm (l : List Range) : (sortFree l).Perm l := by
  have aux : ∀ (t acc : List Range),
      (t.foldl (fun acc r => insertBySize r acc) acc).Perm (acc ++ t) := by
    intro t
    induction t with
    | nil => simp
    | cons r rest ih =>
        intro acc
        rw [List.foldl_cons]
        have h1 := ih (insertBySize r acc)
        have h2 : ((insertBySize r acc) ++ rest).Perm ((r :: acc) ++ rest) :=
          List.Perm.append_right rest (insertBySize_perm r acc)
        have h3 : ((r :: acc) ++ rest).Perm (acc ++ r :: rest) :=
          List.perm_middle.symm
        exact (h1.trans h2).trans h3
  simpa using aux l []

/-! ### Behavior of fillBlock -/

theorem fillBlock_block_size (m : MemorySystem) (i : Nat) (d : Bytes) :
    ((m.fillBlock i d).2).block_size = m.block_size := by
  unfold MemorySystem.fillBlock
  split
  · rfl
  · split <;> rfl

theorem fillBlock_memory_size (m : MemorySystem) (i : Nat) (d : Bytes) :
    ((m.fillBlock i d).2).memory_size = m.memory_size := by
  unfold MemorySystem.fillBlock
  split
  · rfl
  · split <;> rfl

theorem fillBlock_length (m : MemorySystem) (i : Nat) (d : Bytes) :
    ((m.fillBlock i d).2).memory.length = m.memory.length := by
  unfold MemorySystem.fillBlock
  split
  · rfl
  · split
    · rfl
    · simp [List.length_set]

theorem fillBlock_memory_of_valid {m : MemorySystem} {i : Nat} {d : Bytes}
    (hi : i < m.memory_size) (hd : d.length ≤ m.block_size) :
    ((m.fillBlock i d).2).memory = m.memory.set i (some d) := by
  unfold MemorySystem.fillBlock
  have h1 : m.validIndex i = true := by
    simp [MemorySystem.validIndex, hi]
  rw [h1]
  simp [Nat.not_lt.mpr hd]

theorem fillBlock_getD_ne {m : MemorySystem} {i j : Nat} (d : Bytes)
    (h : j ≠ i) :
    ((m.fillBlock i d).2).memory.getD j none = m.memory.getD j none := by
  unfold MemorySystem.fillBlock
  split
  · rfl
  · split
    · rfl
    · exact getD_set_ne (fun he => h he.symm)

/-! ### Behavior of the inner block-writing loop -/

theorem storeBlocksAux_inl :
    ∀ (m : Nat) (ms : MemorySystem) (r0 s : Nat) (data : Bytes),
      1 ≤ ms.block_size → data ≠ [] →
      pyCeilDiv data.length ms.block_size ≤ m →
      ∃ ms' : MemorySystem,
        FileSystem.storeBlocksAux ms r0 (List.range' s m) data
          = (ms', .inl (r0, s + pyCeilDiv data.length ms.block_size)) ∧
        ms'.block_size = ms.block_size ∧
        ms'.memory_size = ms.memory_size ∧
        ms'.memory.length = ms.memory.length ∧
        (∀ i, i < s ∨ s + pyCeilDiv data.length ms.block_size ≤ i →
          ms'.memory.getD i none = ms.memory.getD i none) ∧
        (s + pyCeilDiv data.length ms.block_size ≤ ms.memory_size →
          ms.memory.length = ms.memory_size →
          ∀ k, k < pyCeilDiv data.length ms.block_size →
            ms'.memory.getD (s + k) none = some (chunk ms.block_size data k)) := by
  intro m
  induction m with
  | zero =>
      intro ms r0 s data hbs hne hle
      have h0 : pyCeilDiv data.length ms.block_size = 0 := Nat.le_zero.mp hle
      have hL0 := (pyCeilDiv_eq_zero_iff hbs).mp h0
      exact absurd (List.length_eq_zero.mp hL0) hne
  | succ m ih =>
      intro ms r0 s data hbs hne hle
      have hL : 1 ≤ data.length :=
        Nat.one_le_iff_ne_zero.mpr (fun h => hne (List.length_eq_zero.mp h))
      have hn1 : 1 ≤ pyCeilDiv data.length ms.block_size :=
        pyCeilDiv_pos hbs hL
      rw [List.range'_succ]
      simp only [FileSystem.storeBlocksAux]
      by_cases hemp : (List.drop ms.block_size data).isEmpty
      · -- the data fits in this one block; the ceiling is 1
        have hLbs : data.length ≤ ms.block_size := by
          have := List.isEmpty_iff.mp hemp
          have hlen : data.length - ms.block_size = 0 := by
            have h2 := congrArg List.length this
            simpa [List.length_drop] using h2
          omega
        have hceil : pyCeilDiv data.length ms.block_size = 1 :=
          Nat.le_antisymm ((pyCeilDiv_le_one_iff hbs).mpr hLbs) hn1
        refine ⟨(ms.fillBlock s (List.take ms.block_size data)).2, ?_, ?_, ?_, ?_, ?_, ?_⟩
        · simp only [hemp, if_true, hceil]
        · exact fillBlock_block_size ms s _
        · exact fillBlock_memory_size ms s _
        · exact fillBlock_length ms s _
        · intro i hi
          apply fillBlock_getD_ne
          rw [hceil] at hi
          omega
        · intro hM hlen k hk
          rw [hceil] at hM hk
          interval_cases k
          have hsM : s < ms.memory_size := by omega
          have htk : (List.take ms.block_size data).length ≤ ms.block_size := by
            simp [List.length_take]
          rw [fillBlock_memory_of_valid hsM htk]
          rw [Nat.add_zero, getD_set_self (by omega : s < ms.memory.length)]
          rw [chunk_zero]
      · -- more than one block is needed; recurse
        have hdne : List.drop ms.block_size data ≠ [] := by
          intro h
          exact hemp (by simp [h])
        have hbsL : ms.block_size < data.length := by
          by_contra hc
          exact hdne (List.drop_eq_nil_of_le (Nat.le_of_not_lt hc))
        have hdlen : (List.drop ms.block_size data).length
            = data.length - ms.block_size := List.length_drop _ _
        have hceil' : pyCeilDiv (List.drop ms.block_size data).length
              ms.block_size
            = pyCeilDiv data.length ms.block_size - 1 := by
          rw [hdlen]
          exact pyCeilDiv_drop_step hbs hbsL
        have hn2 : 2 ≤ pyCeilDiv data.length ms.block_size := by
          by_contra hc
          exact (Nat.not_le.mpr hbsL) ((pyCeilDiv_le_one_iff hbs).mp (by omega))
        -- the filled memory system for the head block
        set ms1 := (ms.fillBlock s (List.take ms.block_size data)).2 with hms1
        have hbs1 : ms1.block_size = ms.block_size := fillBlock_block_size ms s _
        have hsz1 : ms1.memory_size = ms.memory_size := fillBlock_memory_size ms s _
        have hlen1 : ms1.memory.length = ms.memory.length := fillBlock_length ms s _
        have hceil1 : pyCeilDiv (List.drop ms.block_size data).length ms1.block_size
            = pyCeilDiv data.length ms.block_size - 1 := by rw [hbs1, hceil']
        obtain ⟨ms', heq, hb', hs', hl', hframe', hcont'⟩ :=
          ih ms1 r0 (s + 1) (List.drop ms.block_size data)
            (by rw [hbs1]; exact hbs) hdne
            (by rw [hceil1]; omega)
        refine ⟨ms', ?_, ?_, ?_, ?_, ?_, ?_⟩
        · simp only [hemp, if_false]
          rw [heq, hceil1]
          have h3 : s + 1 + (pyCeilDiv data.length ms.block_size - 1)
              = s + pyCeilDiv data.length ms.block_size := by omega
          rw [h3]
          simp
        · rw [hb', hbs1]
        · rw [hs', hsz1]
        · rw [hl', hlen1]
        · intro i hi
          have h1 : ms'.memory.getD i none = ms1.memory.getD i none := by
            apply hframe'
            rw [hceil1]
            omega
          rw [h1]
          exact fillBlock_getD_ne _ (by omega)
        · intro hM hlen k hk
          have hsM : s < ms.memory_size := by omega
          have htk : (List.take ms.block_size data).length ≤ ms.block_size := by
            simp [List.length_take]
          have hmem1 : ms1.memory = ms.memory.set s (some (List.take ms.block_size data)) :=
            fillBlock_memory_of_valid hsM htk
          have hM1 : s + 1 + pyCeilDiv (List.drop ms.block_size data).length
              ms1.block_size ≤ ms1.memory_size := by
            rw [hceil1, hsz1]
            omega
          have hlen1' : ms1.memory.length = ms1.memory_size := by
            rw [hlen1, hsz1, hlen]
          cases k with
          | zero =>
              have h1 : ms'.memory.getD s none = ms1.memory.getD s none := by
                apply hframe'
                omega
              rw [Nat.add_zero, h1, hmem1,
                getD_set_self (by omega : s < ms.memory.length), chunk_zero]
          | succ j =>
              have hj : j < pyCeilDiv (List.drop ms.block_size data).length
                  ms1.block_size := by
                rw [hceil1]
                omega
              have h1 := hcont' hM1 hlen1' j hj
              have h2 : s + (j + 1) = s + 1 + j := by omega
              rw [h2, h1, hbs1, chunk_drop]

theorem storeBlocksAux_inr :
    ∀ (m : Nat) (ms : MemorySystem) (r0 s : Nat) (data : Bytes),
      1 ≤ ms.block_size → data ≠ [] →
      m < pyCeilDiv data.length ms.block_size →
      ∃ ms' : MemorySystem,
        FileSystem.storeBlocksAux ms r0 (List.range' s m) data
          = (ms', .inr (List.drop (m * ms.block_size) data)) ∧
        ms'.block_size = ms.block_size ∧
        ms'.memory_size = ms.memory_size ∧
        ms'.memory.length = ms.memory.length ∧
        (∀ i, i < s ∨ s + m ≤ i →
          ms'.memory.getD i none = ms.memory.getD i none) ∧
        (s + m ≤ ms.memory_size → ms.memory.length = ms.memory_size →
          ∀ k, k < m →
            ms'.memory.getD (s + k) none = some (chunk ms.block_size data k)) ∧
        List.drop (m * ms.block_size) data ≠ [] ∧
        pyCeilDiv (List.drop (m * ms.block_size) data).length ms.block_size
          = pyCeilDiv data.length ms.block_size - m := by
  intro m
  induction m with
  | zero =>
      intro ms r0 s data hbs hne hlt
      refine ⟨ms, ?_, rfl, rfl, rfl, ?_, ?_, ?_, ?_⟩
      · simp [FileSystem.storeBlocksAux]
      · intro i _; rfl
      · intro _ _ k hk; omega
      · simpa using hne
      · simp
  | succ m ih =>
      intro ms r0 s data hbs hne hlt
      have hL : 1 ≤ data.length :=
        Nat.one_le_iff_ne_zero.mpr (fun h => hne (List.length_eq_zero.mp h))
      have hn2 : 2 ≤ pyCeilDiv data.length ms.block_size := by omega
      have hbsL : ms.block_size < data.length := by
        by_contra hc
        exact absurd ((pyCeilDiv_le_one_iff hbs).mpr (Nat.le_of_not_lt hc))
          (by omega)
      have hdne : List.drop ms.block_size data ≠ [] := by
        intro h
        have h2 := congrArg List.length h
        simp [List.length_drop] at h2
        omega
      have hemp : (List.drop ms.block_size data).isEmpty = false := by
        rw [Bool.eq_false_iff]
        intro h
        exact hdne (List.isEmpty_iff.mp h)
      have hdlen : (List.drop ms.block_size data).length
          = data.length - ms.block_size := List.length_drop _ _
      have hceil' : pyCeilDiv (List.drop ms.block_size data).length
            ms.block_size
          = pyCeilDiv data.length ms.block_size - 1 := by
        rw [hdlen]
        exact pyCeilDiv_drop_step hbs hbsL
      rw [List.range'_succ]
      simp only [FileSystem.storeBlocksAux, hemp]
      set ms1 := (ms.fillBlock s (List.take ms.block_size data)).2 with hms1
      have hbs1 : ms1.block_size = ms.block_size := fillBlock_block_size ms s _
      have hsz1 : ms1.memory_size = ms.memory_size := fillBlock_memory_size ms s _
      have hlen1 : ms1.memory.length = ms.memory.length := fillBlock_length ms s _
      obtain ⟨ms', heq, hb', hs', hl', hframe', hcont', hne', hceilr⟩ :=
        ih ms1 r0 (s + 1) (List.drop ms.block_size data)
          (by rw [hbs1]; exact hbs) hdne
          (by rw [hbs1, hceil']; omega)
      rw [hbs1] at heq hne' hceilr
      have hdropdrop : List.drop (m * ms.block_size) (List.drop ms.block_size data)
          = List.drop ((m + 1) * ms.block_size) data := by
        rw [List.drop_drop]
        have h3 : ms.block_size + m * ms.block_size = (m + 1) * ms.block_size := by
          ring
        rw [h3]
      refine ⟨ms', ?_, ?_, ?_, ?_, ?_, ?_, ?_, ?_⟩
      · rw [heq, hdropdrop]
        simp
      · rw [hb', hbs1]
      · rw [hs', hsz1]
      · rw [hl', hlen1]
      · intro i hi
        have h1 : ms'.memory.getD i none = ms1.memory.getD i none := by
          apply hframe'
          omega
        rw [h1]
        exact fillBlock_getD_ne _ (by omega)
      · intro hM hlen k hk
        have hsM : s < ms.memory_size := by omega
        have htk : (List.take ms.block_size data).length ≤ ms.block_size := by
          simp [List.length_take]
        have hmem1 : ms1.memory
            = ms.memory.set s (some (List.take ms.block_size data)) :=
          fillBlock_memory_of_valid hsM htk
        have hM1 : s + 1 + m ≤ ms1.memory_size := by rw [hsz1]; omega
        have hlen1' : ms1.memory.length = ms1.memory_size := by
          rw [hlen1, hsz1, hlen]
        cases k with
        | zero =>
            have h1 : ms'.memory.getD s none = ms1.memory.getD s none := by
              apply hframe'
              omega
            rw [Nat.add_zero, h1, hmem1,
              getD_set_self (by omega : s < ms.memory.length), chunk_zero]
        | succ j =>
            have h1 := hcont' hM1 hlen1' j (by omega)
            have h2 : s + (j + 1) = s + 1 + j := by omega
            rw [h2, h1, hbs1, chunk_drop]
      · rw [← hdropdrop]
        exact hne'
      · rw [← hdropdrop]
        rw [hceilr, hceil']
        omega

/-! ### Step equations for the store loop -/

theorem storeLoop_zero (ms : MemorySystem) (free : List Range) (data : Bytes)
    (used : List Range) :
    FileSystem.storeLoop ms free data 0 used = some (ms, free, used) := by
  rw [FileSystem.storeLoop, FileSystem.storeLoopGo]
  simp

theorem storeLoop_firstfit_eq {ms : MemorySystem} {free : List Range}
    {data : Bytes} {n : Nat} {used : List Range} {fb : Range}
    {ms1 : MemorySystem} {result : Range}
    (hnz : n ≠ 0)
    (hfind : free.find? (fun fb => decide (n ≤ fb.2 - fb.1)) = some fb)
    (hsb : FileSystem.storeBlocks ms data fb = (ms1, Sum.inl result)) :
    FileSystem.storeLoop ms free data n used
      = some (ms1,
          (free.erase fb) ++
            (if fb.2 ≠ result.2 then [(result.2, fb.2)] else []),
          used ++ [result]) := by
  rw [FileSystem.storeLoop, FileSystem.storeLoopGo, if_neg hnz, hfind]
  show (match FileSystem.storeBlocks ms data fb with
    | (ms', .inl result) =>
        some (ms',
          (free.erase fb) ++
            (if fb.2 ≠ result.2 then [(result.2, fb.2)] else []),
          used ++ [result])
    | (_, .inr _) => none) = _
  rw [hsb]

theorem storeLoop_fallback_eq {ms : MemorySystem} {free : List Range}
    {data : Bytes} {n : Nat} {used : List Range}
    {ms1 : MemorySystem} {rest : Bytes}
    (hnz : n ≠ 0)
    (hfind : free.find? (fun fb => decide (n ≤ fb.2 - fb.1)) = none)
    (hfne : free ≠ [])
    (hsb : FileSystem.storeBlocks ms data (free.getLast hfne)
        = (ms1, Sum.inr rest)) :
    FileSystem.storeLoop ms free data n used
      = FileSystem.storeLoop ms1 free.dropLast rest
          (pyCeilDiv (List.length rest) ms1.block_size)
          (used ++ [free.getLast hfne]) := by
  rw [FileSystem.storeLoop, FileSystem.storeLoopGo, if_neg hnz, hfind,
    dif_neg hfne]
  show (match FileSystem.storeBlocks ms data (free.getLast hfne) with
    | (_, .inl _) => none
    | (ms', .inr rest) =>
        FileSystem.storeLoopGo free.length ms' free.dropLast
          rest (pyCeilDiv (List.length rest) ms'.block_size)
          (used ++ [free.getLast hfne])) = _
  rw [hsb]
  rw [FileSystem.storeLoop]
  have hlen : free.dropLast.length + 1 = free.length := by
    cases free with
    | nil => exact absurd rfl hfne
    | cons a l => simp
  rw [hlen]

/-! ### The main store-loop lemma: with enough total free space the loop
terminates without raising, consumes exactly the required number of
blocks from the free set, writes the payload chunk by chunk into the
allocated blocks, and preserves the free-list invariants. -/

theorem storeLoop_spec :
    ∀ (fuel : Nat) (free : List Range), free.length ≤ fuel →
    ∀ (ms : MemorySystem) (data : Bytes) (n : Nat) (used : List Range),
      1 ≤ ms.block_size →
      ms.memory.length = ms.memory_size →
      n = pyCeilDiv data.length ms.block_size →
      1 ≤ n →
      n ≤ sumFree free →
      (∀ r ∈ free, r.1 < r.2 ∧ r.2 ≤ ms.memory_size) →
      free.Pairwise Separated →
      ∃ ms' free' new,
        FileSystem.storeLoop ms free data n used
          = some (ms', free', used ++ new) ∧
        ms'.block_size = ms.block_size ∧
        ms'.memory_size = ms.memory_size ∧
        ms'.memory.length = ms.memory.length ∧
        (∀ r ∈ new, ∃ r0 ∈ free, r0.1 ≤ r.1 ∧ r.2 ≤ r0.2) ∧
        (∀ r ∈ new, r.1 < r.2) ∧
        sumFree new + sumFree free' = sumFree free ∧
        (∀ r ∈ free', r.1 < r.2 ∧ r.2 ≤ ms.memory_size) ∧
        free'.Pairwise Separated ∧
        (flattenRanges new).length = n ∧
        (∀ i, i ∉ flattenRanges new →
          ms'.memory.getD i none = ms.memory.getD i none) ∧
        (∀ k, k < n →
          ms'.memory.getD ((flattenRanges new).getD k 0) none
            = some (chunk ms.block_size data k)) := by
  intro fuel
  induction fuel with
  | zero =>
      intro free hlen ms data n used _ _ _ hn1 hcap _ _
      have h0 : free = [] := List.length_eq_zero.mp (Nat.le_zero.mp hlen)
      subst h0
      rw [sumFree_nil] at hcap
      omega
  | succ fuel ih =>
      intro free hlen ms data n used hbs hmlen hn hn1 hcap hbnd hsep
      have hne : data ≠ [] := by
        intro h
        rw [h] at hn
        simp [pyCeilDiv_zero] at hn
        omega
      have hnz : n ≠ 0 := by omega
      cases hfind : free.find? (fun fb => decide (n ≤ fb.2 - fb.1)) with
      | some fb =>
          have hmem : fb ∈ free := List.mem_of_find?_eq_some hfind
          have hsize : n ≤ fb.2 - fb.1 := by
            have h := List.find?_some hfind
            simpa using h
          obtain ⟨hfb1, hfb2⟩ := hbnd fb hmem
          have hle2 : fb.1 + n ≤ fb.2 := by omega
          obtain ⟨ms1, heq, hb1, hs1, hl1, hframe1, hcont1⟩ :=
            storeBlocksAux_inl (fb.2 - fb.1) ms fb.1 fb.1 data hbs hne
              (by rw [← hn]; exact hsize)
          have heq' : FileSystem.storeBlocks ms data fb
              = (ms1, .inl (fb.1, fb.1 + n)) := by
            unfold FileSystem.storeBlocks pyRange
            rw [heq, ← hn]
          have heqloop :=
            @storeLoop_firstfit_eq ms free data n used fb ms1
              (fb.1, fb.1 + n) hnz hfind heq'
          refine ⟨ms1,
            (free.erase fb) ++
              (if fb.2 ≠ fb.1 + n then [(fb.1 + n, fb.2)] else []),
            [(fb.1, fb.1 + n)], heqloop, hb1, hs1, hl1, ?_, ?_, ?_,
            ?_, ?_, ?_, ?_, ?_⟩
          · intro r hr
            rw [List.mem_singleton] at hr
            subst hr
            exact ⟨fb, hmem, Nat.le_refl _, hle2⟩
          · intro r hr
            rw [List.mem_singleton] at hr
            subst hr
            show fb.1 < fb.1 + n
            omega
          · have herase := sumFree_erase hmem
            rw [sumFree_append]
            by_cases htail : fb.2 = fb.1 + n
            · rw [if_neg (by omega)]
              have : rsize fb = n := by unfold rsize; omega
              simp [sumFree_cons, sumFree_nil, rsize]
              omega
            · rw [if_pos htail]
              simp only [sumFree_cons, sumFree_nil, rsize] at *
              omega
          · intro r hr
            rcases List.mem_append.mp hr with h | h
            · obtain ⟨hp, hb⟩ := hbnd r (List.mem_of_mem_erase h)
              exact ⟨hp, hb⟩
            · by_cases htail : fb.2 = fb.1 + n
              · rw [if_neg (by omega)] at h
                cases h
              · rw [if_pos htail] at h
                rw [List.mem_singleton] at h
                subst h
                constructor
                · show fb.1 + n < fb.2
                  omega
                · exact hfb2
          · have hperm := perm_cons_erase_range hmem
            have hpw : (fb :: free.erase fb).Pairwise Separated :=
              (pairwise_sep_perm hperm).mp hsep
            rw [List.pairwise_cons] at hpw
            obtain ⟨hfbsep, hpwe⟩ := hpw
            rw [List.pairwise_append]
            refine ⟨hpwe, ?_, ?_⟩
            · by_cases htail : fb.2 = fb.1 + n
              · rw [if_neg (by omega)]
                exact List.Pairwise.nil
              · rw [if_pos htail]
                exact List.pairwise_singleton _ _
            · intro a ha b hb
              by_cases htail : fb.2 = fb.1 + n
              · rw [if_neg (by omega)] at hb
                cases hb
              · rw [if_pos htail] at hb
                rw [List.mem_singleton] at hb
                subst hb
                rcases hfbsep a ha with h | h
                · exact Or.inr h
                · exact Or.inl (by show a.2 < fb.1 + n; omega)
          · show (flattenRanges [(fb.1, fb.1 + n)]).length = n
            simp [flattenRanges, length_pyRange]
          · intro i hi
            apply hframe1
            simp only [flattenRanges, List.append_nil, mem_pyRange] at hi
            omega
          · intro k hk
            have hgd : (flattenRanges [(fb.1, fb.1 + n)]).getD k 0
                = fb.1 + k := by
              simp only [flattenRanges, List.append_nil]
              exact getD_pyRange (by omega)
            rw [hgd, ← hn] at *
            exact hcont1 (by omega) hmlen k hk
      | none =>
          have hnofit : ∀ r ∈ free, rsize r < n := by
            intro r hr
            have := List.find?_eq_none.mp hfind r hr
            unfold rsize
            simpa using this
          have hfne : free ≠ [] := by
            intro h
            subst h
            rw [sumFree_nil] at hcap
            omega
          obtain ⟨f, fs, hffs⟩ := List.exists_cons_of_ne_nil hfne
          subst hffs
          set fb := (f :: fs).getLast (List.cons_ne_nil f fs) with hfbdef
          have hmem : fb ∈ f :: fs := List.getLast_mem (List.cons_ne_nil f fs)
          obtain ⟨hfb1, hfb2⟩ := hbnd fb hmem
          have hmlt : fb.2 - fb.1 < n := hnofit fb hmem
          have hmpos : 1 ≤ fb.2 - fb.1 := by omega
          obtain ⟨ms1, heq, hb1, hs1, hl1, hframe1, hcont1, hne1, hceil1⟩ :=
            storeBlocksAux_inr (fb.2 - fb.1) ms fb.1 fb.1 data hbs hne
              (by rw [← hn]; exact hmlt)
          have heq' : FileSystem.storeBlocks ms data fb
              = (ms1, .inr (List.drop ((fb.2 - fb.1) * ms.block_size) data)) := by
            unfold FileSystem.storeBlocks pyRange
            rw [heq]
          set rest := List.drop ((fb.2 - fb.1) * ms.block_size) data with hrest
          have hdec : (f :: fs).dropLast ++ [fb] = f :: fs :=
            List.dropLast_append_getLast (List.cons_ne_nil f fs)
          have hsumdec : sumFree ((f :: fs).dropLast) + rsize fb
              = sumFree (f :: fs) := by
            conv_rhs => rw [← hdec]
            rw [sumFree_append, sumFree_cons, sumFree_nil]
            omega
          have hsepLast : ∀ r ∈ (f :: fs).dropLast, Separated r fb := by
            intro r hr
            have h2 : ((f :: fs).dropLast ++ [fb]).Pairwise Separated := by
              rw [hdec]; exact hsep
            rw [List.pairwise_append] at h2
            exact h2.2.2 r hr fb (List.mem_singleton_self fb)
          have hceilms1 : pyCeilDiv (List.length rest) ms1.block_size
              = n - (fb.2 - fb.1) := by
            rw [hb1, hrest, hceil1, ← hn]
          have hsubmem : ∀ r ∈ (f :: fs).dropLast, r ∈ f :: fs := by
            intro r hr
            exact (List.dropLast_sublist (f :: fs)).mem hr
          obtain ⟨ms2, free2, new2, heq2, hb2, hs2, hl2, hsub2, hpos2, hsum2,
              hbnd2, hsep2, hflat2, hframe2, hcont2⟩ :=
            ih ((f :: fs).dropLast)
              (by
                rw [List.length_dropLast]
                simp only [List.length_cons] at hlen ⊢
                omega)
              ms1 rest (n - (fb.2 - fb.1)) (used ++ [fb])
              (by rw [hb1]; exact hbs)
              (by rw [hl1, hs1, hmlen])
              (by rw [hceilms1])
              (by omega)
              (by
                have hrs : rsize fb = fb.2 - fb.1 := rfl
                omega)
              (by
                intro r hr
                rw [hs1]
                exact hbnd r (hsubmem r hr))
              (List.Pairwise.sublist (List.dropLast_sublist (f :: fs)) hsep)
          have hfb12 : fb.1 + (fb.2 - fb.1) = fb.2 := by omega
          have hnotin2 : ∀ i, fb.1 ≤ i → i < fb.2 → i ∉ flattenRanges new2 := by
            intro i hi1 hi2 hin
            obtain ⟨r, hr, hri1, hri2⟩ := mem_flattenRanges.mp hin
            obtain ⟨r0, hr0, hr01, hr02⟩ := hsub2 r hr
            have hsep0 := hsepLast r0 hr0
            rcases hsep0 with h | h
            · omega
            · omega
          refine ⟨ms2, free2, fb :: new2, ?_, ?_, ?_, ?_, ?_, ?_, ?_, ?_, ?_,
            ?_, ?_, ?_⟩
          · have hstep :=
              @storeLoop_fallback_eq ms (f :: fs) data n used ms1 _ hnz hfind
                (List.cons_ne_nil f fs) heq'
            rw [hceilms1] at hstep
            refine hstep.trans (heq2.trans ?_)
            rw [List.append_assoc]
            rfl
          · rw [hb2, hb1]
          · rw [hs2, hs1]
          · rw [hl2, hl1]
          · intro r hr
            rcases List.mem_cons.mp hr with h | h
            · subst h
              exact ⟨fb, hmem, Nat.le_refl _, Nat.le_refl _⟩
            · obtain ⟨r0, hr0, h1, h2⟩ := hsub2 r h
              exact ⟨r0, hsubmem r0 hr0, h1, h2⟩
          · intro r hr
            rcases List.mem_cons.mp hr with h | h
            · subst h; exact hfb1
            · exact hpos2 r h
          · rw [sumFree_cons]
            have hrs : rsize fb = fb.2 - fb.1 := rfl
            omega
          · intro r hr
            have := hbnd2 r hr
            rw [hs1] at this
            exact this
          · exact hsep2
          · show (pyRange fb.1 fb.2 ++ flattenRanges new2).length = n
            rw [List.length_append, length_pyRange, hflat2]
            omega
          · intro i hi
            simp only [flattenRanges, List.mem_append] at hi
            push_neg at hi
            obtain ⟨hi1, hi2⟩ := hi
            rw [hframe2 i hi2]
            apply hframe1
            rw [mem_pyRange] at hi1
            omega
          · intro k hk
            show ms2.memory.getD
              ((pyRange fb.1 fb.2 ++ flattenRanges new2).getD k 0) none
              = some (chunk ms.block_size data k)
            by_cases hkm : k < fb.2 - fb.1
            · rw [getD_append_left _ (by rw [length_pyRange]; exact hkm),
                getD_pyRange hkm]
              have hnin : fb.1 + k ∉ flattenRanges new2 :=
                hnotin2 (fb.1 + k) (by omega) (by omega)
              rw [hframe2 _ hnin]
              exact hcont1 (by omega) hmlen k hkm
            · have hkm' : fb.2 - fb.1 ≤ k := Nat.le_of_not_lt hkm
              rw [getD_append_right _ (by rw [length_pyRange]; exact hkm')]
              rw [length_pyRange]
              have hk2 : k - (fb.2 - fb.1) < n - (fb.2 - fb.1) := by omega
              have := hcont2 (k - (fb.2 - fb.1)) hk2
              rw [this, hb1, hrest, chunk_drop_mul]
              have h5 : fb.2 - fb.1 + (k - (fb.2 - fb.1)) = k := by omega
              rw [h5]

/-! ### Characterization of the capacity check -/

theorem checkSpaceGo_spec :
    ∀ (l : List Range) (c : Int), (∀ r ∈ l, r.1 ≤ r.2) →
      (checkSpaceGo l c = true ↔ (l ≠ [] ∧ c ≤ (sumFree l : Int))) := by
  intro l
  induction l with
  | nil =>
      intro c _
      simp [checkSpaceGo]
  | cons r rest ih =>
      intro c h
      have hr : r.1 ≤ r.2 := h r (List.mem_cons_self r rest)
      have hcast : (rsize r : Int) = (r.2 : Int) - (r.1 : Int) := by
        unfold rsize
        omega
      have hstep : checkSpaceGo (r :: rest) c
          = if c - ((r.2 : Int) - (r.1 : Int)) ≤ 0 then true
            else checkSpaceGo rest (c - ((r.2 : Int) - (r.1 : Int))) := rfl
      rw [hstep]
      have hsumnn : (0 : Int) ≤ (sumFree rest : Int) := Int.ofNat_nonneg _
      by_cases hc : c - ((r.2 : Int) - (r.1 : Int)) ≤ 0
      · rw [if_pos hc]
        constructor
        · intro _
          refine ⟨List.cons_ne_nil r rest, ?_⟩
          rw [sumFree_cons]
          push_cast
          omega
        · intro _
          rfl
      · rw [if_neg hc]
        rw [ih _ (fun s hs => h s (List.mem_cons_of_mem r hs))]
        constructor
        · rintro ⟨h1, h2⟩
          refine ⟨List.cons_ne_nil r rest, ?_⟩
          rw [sumFree_cons]
          push_cast
          omega
        · rintro ⟨_, h2⟩
          rw [sumFree_cons] at h2
          push_cast at h2
          constructor
          · intro hre
            subst hre
            rw [sumFree_nil] at h2
            push_cast at h2
            omega
          · omega

theorem checkSpace_spec (free : List Range) (n : Nat)
    (h : ∀ r ∈ free, r.1 ≤ r.2) :
    FileSystem.checkSpace free (n : Int) = true
      ↔ (free ≠ [] ∧ n ≤ sumFree free) := by
  unfold FileSystem.checkSpace
  rw [checkSpaceGo_spec _ _ (fun r hr => h r (List.mem_reverse.mp hr))]
  have hsum : sumFree free.reverse = sumFree free :=
    sumFree_perm (List.reverse_perm free)
  rw [hsum]
  constructor
  · rintro ⟨h1, h2⟩
    refine ⟨fun he => h1 (by rw [he]; rfl), ?_⟩
    exact_mod_cast h2
  · rintro ⟨h1, h2⟩
    refine ⟨fun he => h1 (by simpa using List.reverse_eq_nil_iff.mp he), ?_⟩
    exact_mod_cast h2

/-! ### File-table (dict) lemmas -/

theorem tableGet_cons (e : String × List Range)
    (rest : List (String × List Range)) (k : String) :
    tableGet (e :: rest) k
      = if e.1 = k then some e.2 else tableGet rest k := by
  unfold tableGet
  by_cases h : e.1 = k
  · rw [List.find?_cons_of_pos _ (by simp [h]), if_pos h]
  · rw [List.find?_cons_of_neg _ (by simp [h]), if_neg h]

theorem tableGet_tableUpdate_self
    (t : List (String × List Range)) (k : String) (v : List Range) :
    tableGet (tableUpdate t k v) k = some v := by
  induction t with
  | nil =>
      simp [tableUpdate, tableGet_cons]
  | cons e rest ih =>
      unfold tableUpdate
      by_cases h : e.1 = k
      · rw [if_pos h, tableGet_cons, if_pos rfl]
      · rw [if_neg h, tableGet_cons, if_neg h]
        exact ih

theorem mem_tableUpdate {e : String × List Range}
    {t : List (String × List Range)} {k : String} {v : List Range}
    (h : e ∈ tableUpdate t k v) : e = (k, v) ∨ e ∈ t := by
  induction t with
  | nil =>
      simp [tableUpdate] at h
      exact Or.inl h
  | cons f rest ih =>
      unfold tableUpdate at h
      by_cases hf : f.1 = k
      · rw [if_pos hf] at h
        rcases List.mem_cons.mp h with h1 | h1
        · exact Or.inl h1
        · exact Or.inr (List.mem_cons_of_mem f h1)
      · rw [if_neg hf] at h
        rcases List.mem_cons.mp h with h1 | h1
        · exact Or.inr (by rw [h1]; exact List.mem_cons_self f rest)
        · rcases ih h1 with h2 | h2
          · exact Or.inl h2
          · exact Or.inr (List.mem_cons_of_mem f h2)

theorem sumTable_cons (e : String × List Range)
    (t : List (String × List Range)) :
    sumTable (e :: t) = sumFree e.2 + sumTable t := by
  simp [sumTable]

theorem sumTable_tableUpdate {t : List (String × List Range)} {k : String}
    (v : List Range) (h : truthy (tableGet t k) = false) :
    sumTable (tableUpdate t k v) = sumTable t + sumFree v := by
  induction t with
  | nil =>
      show sumTable [(k, v)] = sumTable [] + sumFree v
      rw [sumTable_cons]
      show sumFree v + sumTable [] = _
      simp [sumTable]
  | cons e rest ih =>
      rw [tableGet_cons] at h
      unfold tableUpdate
      by_cases he : e.1 = k
      · rw [if_pos he] at h ⊢
        have hemp : e.2 = [] := by
          unfold truthy at h
          simp at h
          exact h
        rw [sumTable_cons, sumTable_cons, hemp, sumFree_nil]
        show sumFree v + sumTable rest = _
        omega
      · rw [if_neg he] at h ⊢
        rw [sumTable_cons, sumTable_cons, ih h]
        omega

theorem tableGet_mem {t : List (String × List Range)} {k : String}
    {v : List Range} (h : tableGet t k = some v) : (k, v) ∈ t := by
  induction t with
  | nil => simp [tableGet] at h
  | cons e rest ih =>
      rw [tableGet_cons] at h
      by_cases he : e.1 = k
      · rw [if_pos he] at h
        have : e = (k, v) := by
          cases e
          simp at he h
          simp [he, h]
        rw [← this]
        exact List.mem_cons_self e rest
      · rw [if_neg he] at h
        exact List.mem_cons_of_mem e (ih h)

/-! ### Reading back stored chunks -/

theorem getBlock_valid {ms : MemorySystem} {i : Nat}
    (hi : i < ms.memory_size) :
    ms.getBlock i = .inr (ms.memory.getD i none) := by
  simp [MemorySystem.getBlock, MemorySystem.validIndex, hi]

theorem getBlocksGo_reads (ms : MemorySystem) :
    ∀ (idxs : List Nat) (data acc : Bytes),
      1 ≤ ms.block_size → data ≠ [] →
      idxs.length = pyCeilDiv data.length ms.block_size →
      (∀ i ∈ idxs, i < ms.memory_size) →
      (∀ k, k < idxs.length →
        ms.memory.getD (idxs.getD k 0) none
          = some (chunk ms.block_size data k)) →
      FileSystem.getBlocksGo ms idxs acc = .ok (acc ++ data) := by
  intro idxs
  induction idxs with
  | nil =>
      intro data acc hbs hne hlen _ _
      have h0 := (pyCeilDiv_eq_zero_iff hbs).mp (by simpa using hlen.symm)
      exact absurd (List.length_eq_zero.mp h0) hne
  | cons i rest ih =>
      intro data acc hbs hne hlen hin hcont
      have hL : 1 ≤ data.length :=
        Nat.one_le_iff_ne_zero.mpr (fun h => hne (List.length_eq_zero.mp h))
      have hiM : i < ms.memory_size := hin i (List.mem_cons_self i rest)
      have hval : ms.memory.getD i none = some (chunk ms.block_size data 0) := by
        have := hcont 0 (by simp)
        simpa using this
      have hchunk0 : chunk ms.block_size data 0 = List.take ms.block_size data :=
        chunk_zero _ _
      have hchne : (List.take ms.block_size data).isEmpty = false := by
        rw [Bool.eq_false_iff]
        intro ht
        have h2 := congrArg List.length (List.isEmpty_iff.mp ht)
        rw [List.length_take] at h2
        simp only [List.length_nil] at h2
        omega
      by_cases hrest : rest = []
      · subst hrest
        have hceil1 : pyCeilDiv data.length ms.block_size = 1 := by
          simpa using hlen.symm
        have hLbs : data.length ≤ ms.block_size :=
          (pyCeilDiv_le_one_iff hbs).mp (by omega)
        have htake : List.take ms.block_size data = data :=
          List.take_of_length_le hLbs
        rw [htake] at hchne
        simp only [FileSystem.getBlocksGo, getBlock_valid hiM, hval, hchunk0,
          htake, hchne, Bool.false_eq_true, if_false]
      · have hrlen : 1 ≤ rest.length := by
          cases rest with
          | nil => exact absurd rfl hrest
          | cons a l => simp
        have hceil2 : 2 ≤ pyCeilDiv data.length ms.block_size := by
          simp only [List.length_cons] at hlen
          omega
        have hbsL : ms.block_size < data.length := by
          by_contra hc
          have := (pyCeilDiv_le_one_iff hbs).mpr (Nat.le_of_not_lt hc)
          omega
        have hdne : List.drop ms.block_size data ≠ [] := by
          intro h
          have h2 := congrArg List.length h
          simp [List.length_drop] at h2
          omega
        have hceil' : pyCeilDiv (List.drop ms.block_size data).length
              ms.block_size
            = pyCeilDiv data.length ms.block_size - 1 := by
          rw [List.length_drop]
          exact pyCeilDiv_drop_step hbs hbsL
        have hIH := ih (List.drop ms.block_size data)
          (acc ++ List.take ms.block_size data) hbs hdne
          (by
            rw [hceil']
            simp only [List.length_cons] at hlen
            omega)
          (fun j hj => hin j (List.mem_cons_of_mem i hj))
          (by
            intro k hk
            have hk1 := hcont (k + 1) (by simp only [List.length_cons]; omega)
            have hgd : (i :: rest).getD (k + 1) 0 = rest.getD k 0 := by
              rw [List.getD_eq_getElem?_getD, List.getD_eq_getElem?_getD,
                List.getElem?_cons_succ]
            rw [hgd] at hk1
            rw [hk1, chunk_drop])
        simp only [FileSystem.getBlocksGo, getBlock_valid hiM, hval, hchunk0,
          hchne, Bool.false_eq_true, if_false]
        rw [hIH, List.append_assoc, List.take_append_drop]

/-! ### Unfolding lemmas for store_file -/

theorem store_file_dup {fs : FileSystem} {data : Bytes} {name : String}
    (h : truthy (tableGet fs.file_table name) = true) :
    FileSystem.store_file fs data name = some (false, fs) := by
  unfold FileSystem.store_file
  rw [if_pos h]

theorem store_file_nospace {fs : FileSystem} {data : Bytes} {name : String}
    (hfresh : truthy (tableGet fs.file_table name) = false)
    (hcheck : FileSystem.checkSpace fs.free_blocks
      ((pyCeilDiv data.length fs.ms.block_size : Nat) : Int) = false) :
    FileSystem.store_file fs data name = some (false, fs) := by
  unfold FileSystem.store_file
  rw [hfresh]
  simp only [Bool.false_eq_true, if_false]
  rw [hcheck]
  simp

theorem store_file_eq_of_loop {fs : FileSystem} {data : Bytes}
    {name : String} {ms' : MemorySystem} {free' new : List Range}
    (hfresh : truthy (tableGet fs.file_table name) = false)
    (hcheck : FileSystem.checkSpace fs.free_blocks
      ((pyCeilDiv data.length fs.ms.block_size : Nat) : Int) = true)
    (hloop : FileSystem.storeLoop fs.ms fs.free_blocks data
      (pyCeilDiv data.length fs.ms.block_size) [] = some (ms', free', new)) :
    FileSystem.store_file fs data name
      = some (true,
          { ms := ms', free_blocks := sortFree free',
            file_table := tableUpdate fs.file_table name new }) := by
  unfold FileSystem.store_file
  rw [hfresh]
  simp only [Bool.false_eq_true, if_false]
  rw [hcheck]
  simp only [Bool.not_true, Bool.false_eq_true, if_false]
  rw [hloop]

/-! ### The invariant of reachable file-system states -/

theorem inv_init {block_size memory_size : Nat} (hbs : 1 ≤ block_size) :
    FsInv (FileSystem.init block_size memory_size) := by
  refine ⟨hbs, by simp [FileSystem.init], ?_, ?_, ?_, ?_⟩
  · intro r hr
    simp only [FileSystem.init, List.mem_singleton] at hr
    subst hr
    refine ⟨Nat.zero_le _, Nat.le_refl _, ?_⟩
    show 0 < memory_size ∨ memory_size = 0
    omega
  · exact List.pairwise_singleton _ _
  · intro e he
    simp [FileSystem.init] at he
  · simp [FileSystem.init, sumFree, sumTable, rsize]

theorem inv_free_pos {fs : FileSystem} (hInv : FsInv fs)
    (h : 1 ≤ sumFree fs.free_blocks) :
    ∀ r ∈ fs.free_blocks, r.1 < r.2 ∧ r.2 ≤ fs.ms.memory_size := by
  intro r hr
  obtain ⟨h1, h2, h3⟩ := hInv.hfree r hr
  rcases h3 with h3 | h3
  · exact ⟨h3, h2⟩
  · exfalso
    have hz : sumFree fs.free_blocks = 0 := by
      apply sumFree_eq_zero
      intro s hs
      obtain ⟨_, hs2, _⟩ := hInv.hfree s hs
      unfold rsize
      omega
    omega

/-! ### The full behavior of a successful store -/

theorem store_file_success_spec
    {fs : FileSystem} {data : Bytes} {name : String}
    (hInv : FsInv fs)
    (hfresh : truthy (tableGet fs.file_table name) = false)
    (hdata : 1 ≤ data.length)
    (hcap : pyCeilDiv data.length fs.ms.block_size
      ≤ sumFree fs.free_blocks) :
    ∃ ms' free' new,
      FileSystem.store_file fs data name
        = some (true,
            { ms := ms', free_blocks := sortFree free',
              file_table := tableUpdate fs.file_table name new }) ∧
      ms'.block_size = fs.ms.block_size ∧
      ms'.memory_size = fs.ms.memory_size ∧
      ms'.memory.length = fs.ms.memory.length ∧
      (∀ r ∈ new, ∃ r0 ∈ fs.free_blocks, r0.1 ≤ r.1 ∧ r.2 ≤ r0.2) ∧
      (∀ r ∈ new, r.1 < r.2) ∧
      sumFree new + sumFree free' = sumFree fs.free_blocks ∧
      (∀ r ∈ free', r.1 < r.2 ∧ r.2 ≤ fs.ms.memory_size) ∧
      free'.Pairwise Separated ∧
      (flattenRanges new).length
        = pyCeilDiv data.length fs.ms.block_size ∧
      (∀ i, i ∉ flattenRanges new →
        ms'.memory.getD i none = fs.ms.memory.getD i none) ∧
      (∀ k, k < pyCeilDiv data.length fs.ms.block_size →
        ms'.memory.getD ((flattenRanges new).getD k 0) none
          = some (chunk fs.ms.block_size data k)) := by
  have hn1 : 1 ≤ pyCeilDiv data.length fs.ms.block_size :=
    pyCeilDiv_pos hInv.hbs hdata
  have hpos : ∀ r ∈ fs.free_blocks, r.1 < r.2 ∧ r.2 ≤ fs.ms.memory_size :=
    inv_free_pos hInv (by omega)
  obtain ⟨ms', free', new, hloop, hb, hs, hl, hsub, hposn, hsum, hbnd',
      hsep', hflat, hframe, hcont⟩ :=
    storeLoop_spec (fs.free_blocks.length + 1) fs.free_blocks
      (Nat.le_succ _) fs.ms data _ [] hInv.hbs hInv.hmemlen rfl hn1 hcap
      hpos hInv.hsep
  rw [List.nil_append] at hloop
  have hfne : fs.free_blocks ≠ [] := by
    intro h
    rw [h, sumFree_nil] at hcap
    omega
  have hcheck : FileSystem.checkSpace fs.free_blocks
      ((pyCeilDiv data.length fs.ms.block_size : Nat) : Int) = true :=
    (checkSpace_spec _ _ (fun r hr => (hInv.hfree r hr).1)).mpr ⟨hfne, hcap⟩
  exact ⟨ms', free', new,
    store_file_eq_of_loop hfresh hcheck hloop,
    hb, hs, hl, hsub, hposn, hsum, hbnd', hsep', hflat, hframe, hcont⟩

/-! ### Reading a file written by a successful store -/

theorem get_file_after_store
    {fs : FileSystem} {data : Bytes} {name : String}
    {ms' : MemorySystem} {free' new : List Range}
    (hInv : FsInv fs)
    (hdata : 1 ≤ data.length)
    (hb : ms'.block_size = fs.ms.block_size)
    (hs : ms'.memory_size = fs.ms.memory_size)
    (hsub : ∀ r ∈ new, ∃ r0 ∈ fs.free_blocks, r0.1 ≤ r.1 ∧ r.2 ≤ r0.2)
    (hflat : (flattenRanges new).length
      = pyCeilDiv data.length fs.ms.block_size)
    (hcont : ∀ k, k < pyCeilDiv data.length fs.ms.block_size →
      ms'.memory.getD ((flattenRanges new).getD k 0) none
        = some (chunk fs.ms.block_size data k)) :
    FileSystem.get_file
      { ms := ms', free_blocks := sortFree free',
        file_table := tableUpdate fs.file_table name new } name
      = .ok data := by
  have hn1 : 1 ≤ pyCeilDiv data.length fs.ms.block_size :=
    pyCeilDiv_pos hInv.hbs hdata
  have hne : data ≠ [] := by
    intro h
    rw [h] at hdata
    simp at hdata
  have hnewne : new ≠ [] := by
    intro h
    rw [h] at hflat
    simp [flattenRanges] at hflat
    omega
  unfold FileSystem.get_file
  rw [tableGet_tableUpdate_self]
  show (if new.isEmpty then GetResult.failure
    else FileSystem.getBlocksGo ms' (flattenRanges new) []) = _
  rw [if_neg (by simp [List.isEmpty_iff, hnewne])]
  have hread := getBlocksGo_reads ms' (flattenRanges new) data []
    (by rw [hb]; exact hInv.hbs) hne
    (by rw [hb]; exact hflat)
    (by
      intro i hi
      obtain ⟨r, hr, hi1, hi2⟩ := mem_flattenRanges.mp hi
      obtain ⟨r0, hr0, h1, h2⟩ := hsub r hr
      have := (hInv.hfree r0 hr0).2.1
      rw [hs]
      omega)
    (by
      intro k hk
      rw [hflat] at hk
      rw [hb]
      exact hcont k hk)
  rw [List.nil_append] at hread
  exact hread

/-! ### The behavior of delete_file -/

theorem delete_file_not_found {fs : FileSystem} {name : String}
    (h : tableGet fs.file_table name = none) :
    FileSystem.delete_file fs name = (false, fs) := by
  unfold FileSystem.delete_file
  rw [h]

theorem delete_file_empty_record {fs : FileSystem} {name : String}
    (h : tableGet fs.file_table name = some []) :
    FileSystem.delete_file fs name = (false, fs) := by
  unfold FileSystem.delete_file
  rw [h]
  rfl

theorem emptyBlock_valid {ms : MemorySystem} {i : Nat}
    (hi : i < ms.memory_size) :
    ms.emptyBlock i = (0, { ms with memory := ms.memory.set i none }) := by
  simp [MemorySystem.emptyBlock, MemorySystem.validIndex, hi]

/-- The inverted truthiness check in `__empty_blocks`: the very first
successful `empty_block` call (status `0`, which is falsy) makes the
helper return `False`, after clearing exactly that one block. -/
theorem emptyBlocksGo_first_valid {ms : MemorySystem} {i : Nat}
    (idxs : List Nat) (hi : i < ms.memory_size) :
    FileSystem.emptyBlocksGo ms (i :: idxs)
      = ({ ms with memory := ms.memory.set i none }, false) := by
  simp [FileSystem.emptyBlocksGo, emptyBlock_valid hi]

theorem flattenRanges_cons_pos {r : Range} {rs : List Range}
    (hr : r.1 < r.2) :
    flattenRanges (r :: rs)
      = r.1 :: (pyRange (r.1 + 1) r.2 ++ flattenRanges rs) := by
  show pyRange r.1 r.2 ++ flattenRanges rs = _
  rw [pyRange_cons hr]
  rfl

/-- `delete_file` on a record whose first range is a genuine in-bounds
range: it clears the first block of that range, then returns `False`
without touching the free list or the file table. -/
theorem delete_file_found {fs : FileSystem} {name : String} {r : Range}
    {rs : List Range}
    (h : tableGet fs.file_table name = some (r :: rs))
    (hr : r.1 < r.2) (hv : r.1 < fs.ms.memory_size) :
    FileSystem.delete_file fs name
      = (false,
          { fs with ms :=
            { fs.ms with memory := fs.ms.memory.set r.1 none } }) := by
  unfold FileSystem.delete_file
  rw [h]
  show (if (r :: rs).isEmpty then (false, fs)
    else
      match FileSystem.emptyBlocksGo fs.ms (flattenRanges (r :: rs)) with
      | (ms', false) => (false, { fs with ms := ms' })
      | (ms', true) =>
          (true,
            { ms := ms',
              free_blocks :=
                sortFree ((r :: rs).foldl releaseRange fs.free_blocks),
              file_table := tablePop fs.file_table name })) = _
  rw [flattenRanges_cons_pos hr, emptyBlocksGo_first_valid _ hv]
  rfl

/-- After the failed delete, reading the same identifier fails, because
the first block of the first recorded range is now empty. -/
theorem get_file_after_delete {fs : FileSystem} {name : String} {r : Range}
    {rs : List Range}
    (h : tableGet fs.file_table name = some (r :: rs))
    (hr : r.1 < r.2) (hv : r.1 < fs.ms.memory_size) :
    FileSystem.get_file
      { fs with ms := { fs.ms with memory := fs.ms.memory.set r.1 none } }
      name = .failure := by
  unfold FileSystem.get_file
  show (match tableGet fs.file_table name with
    | none => GetResult.failure
    | some file_blocks =>
        if file_blocks.isEmpty then GetResult.failure
        else FileSystem.getBlocksGo
          { fs.ms with memory := fs.ms.memory.set r.1 none }
          (flattenRanges file_blocks) []) = _
  rw [h]
  show (if (r :: rs).isEmpty then GetResult.failure
    else FileSystem.getBlocksGo
      { fs.ms with memory := fs.ms.memory.set r.1 none }
      (flattenRanges (r :: rs)) []) = _
  rw [flattenRanges_cons_pos hr]
  have hgb : MemorySystem.getBlock
      { fs.ms with memory := fs.ms.memory.set r.1 none } r.1
      = .inr none := by
    have hv' : r.1 < ({ fs.ms with
        memory := fs.ms.memory.set r.1 none } : MemorySystem).memory_size :=
      hv
    rw [getBlock_valid hv']
    show (Sum.inr ((fs.ms.memory.set r.1 none).getD r.1 none)
      : Sum Nat (Option Bytes)) = _
    rw [getD_set_none]
  simp [FileSystem.getBlocksGo, hgb]

/-- In any state whose file-table records are well-formed (non-empty
ranges, in bounds), `delete_file` always returns `False` and leaves the
free list and the file table unchanged; at most one memory block (the
first block of the record's first range) is cleared. -/
theorem delete_file_spec (fs : FileSystem) (name : String)
    (htable : ∀ e ∈ fs.file_table, ∀ r ∈ e.2,
      r.1 < r.2 ∧ r.2 ≤ fs.ms.memory_size) :
    ∃ mem', FileSystem.delete_file fs name
      = (false, { fs with ms := { fs.ms with memory := mem' } }) ∧
      mem'.length = fs.ms.memory.length := by
  cases h : tableGet fs.file_table name with
  | none =>
      exact ⟨fs.ms.memory, by rw [delete_file_not_found h], rfl⟩
  | some l =>
      cases l with
      | nil =>
          exact ⟨fs.ms.memory, by rw [delete_file_empty_record h], rfl⟩
      | cons r rs =>
          have hmem := tableGet_mem h
          have hrb := htable (name, r :: rs) hmem r
            (List.mem_cons_self r rs)
          refine ⟨fs.ms.memory.set r.1 none, ?_, List.length_set _ _ _⟩
          exact delete_file_found h hrb.1 (by omega)

/-! ### Preservation of the invariant -/

theorem inv_delete {fs fs' : FileSystem} {name : String} {b : Bool}
    (hInv : FsInv fs)
    (heq : FileSystem.delete_file fs name = (b, fs')) : FsInv fs' := by
  obtain ⟨mem', heq2, hlen⟩ := delete_file_spec fs name hInv.htable
  have h := heq2.symm.trans heq
  simp only [Prod.mk.injEq] at h
  obtain ⟨_, hfs⟩ := h
  subst hfs
  exact ⟨hInv.hbs, by rw [hlen]; exact hInv.hmemlen, hInv.hfree, hInv.hsep,
    hInv.htable, hInv.hsum⟩

theorem inv_store {fs fs' : FileSystem} {data : Bytes} {name : String}
    {b : Bool} (hInv : FsInv fs)
    (heq : FileSystem.store_file fs data name = some (b, fs')) :
    FsInv fs' := by
  by_cases h1 : truthy (tableGet fs.file_table name) = true
  · have h := (store_file_dup h1).symm.trans heq
    simp only [Option.some.injEq, Prod.mk.injEq] at h
    rw [← h.2]
    exact hInv
  · have h1' : truthy (tableGet fs.file_table name) = false :=
      Bool.eq_false_iff.mpr h1
    by_cases h2 : FileSystem.checkSpace fs.free_blocks
        ((pyCeilDiv data.length fs.ms.block_size : Nat) : Int) = true
    · by_cases h3 : data.length = 0
      · -- n = 0: the loop is skipped and an empty record is stored
        have hn0 : pyCeilDiv data.length fs.ms.block_size = 0 := by
          rw [h3]
          exact pyCeilDiv_zero _
        have hloop0 : FileSystem.storeLoop fs.ms fs.free_blocks data
            (pyCeilDiv data.length fs.ms.block_size) []
            = some (fs.ms, fs.free_blocks, []) := by
          rw [hn0]
          exact storeLoop_zero _ _ _ _
        have heq0 := store_file_eq_of_loop h1' h2 hloop0
        have h := heq0.symm.trans heq
        simp only [Option.some.injEq, Prod.mk.injEq] at h
        rw [← h.2]
        refine ⟨hInv.hbs, hInv.hmemlen, ?_, ?_, ?_, ?_⟩
        · intro r hr
          exact hInv.hfree r ((sortFree_perm _).mem_iff.mp hr)
        · exact (pairwise_sep_perm (sortFree_perm _)).mpr hInv.hsep
        · intro e he
          rcases mem_tableUpdate he with h4 | h4
          · intro r hr
            rw [h4] at hr
            simp at hr
          · exact hInv.htable e h4
        · show sumFree (sortFree fs.free_blocks)
            + sumTable (tableUpdate fs.file_table name [])
            = fs.ms.memory_size
          rw [sumFree_perm (sortFree_perm _), sumTable_tableUpdate [] h1',
            sumFree_nil]
          have := hInv.hsum
          omega
      · -- n ≥ 1: the loop runs and the invariant follows from its spec
        have hd1 : 1 ≤ data.length := Nat.one_le_iff_ne_zero.mpr h3
        have hcap : pyCeilDiv data.length fs.ms.block_size
            ≤ sumFree fs.free_blocks :=
          ((checkSpace_spec _ _ (fun r hr => (hInv.hfree r hr).1)).mp h2).2
        obtain ⟨ms', free', new, heqS, hb, hs, hl, hsub, hposn, hsum,
            hbnd', hsep', hflat, hframe, hcont⟩ :=
          store_file_success_spec hInv h1' hd1 hcap
        have h := heqS.symm.trans heq
        simp only [Option.some.injEq, Prod.mk.injEq] at h
        rw [← h.2]
        refine ⟨?_, ?_, ?_, ?_, ?_, ?_⟩
        · show 1 ≤ ms'.block_size
          rw [hb]
          exact hInv.hbs
        · show ms'.memory.length = ms'.memory_size
          rw [hl, hs]
          exact hInv.hmemlen
        · intro r hr
          have hr' := (sortFree_perm _).mem_iff.mp hr
          obtain ⟨hp, hbd⟩ := hbnd' r hr'
          show r.1 ≤ r.2 ∧ r.2 ≤ ms'.memory_size ∧
            (r.1 < r.2 ∨ ms'.memory_size = 0)
          rw [hs]
          exact ⟨Nat.le_of_lt hp, hbd, Or.inl hp⟩
        · exact (pairwise_sep_perm (sortFree_perm _)).mpr hsep'
        · intro e he
          rcases mem_tableUpdate he with h4 | h4
          · intro r hr
            rw [h4] at hr
            simp only at hr
            obtain ⟨r0, hr0, hs1, hs2⟩ := hsub r hr
            have := (hInv.hfree r0 hr0).2.1
            show r.1 < r.2 ∧ r.2 ≤ ms'.memory_size
            rw [hs]
            exact ⟨hposn r hr, by omega⟩
          · intro r hr
            have := hInv.htable e h4 r hr
            show r.1 < r.2 ∧ r.2 ≤ ms'.memory_size
            rw [hs]
            exact this
        · show sumFree (sortFree free')
            + sumTable (tableUpdate fs.file_table name new)
            = ms'.memory_size
          rw [sumFree_perm (sortFree_perm _),
            sumTable_tableUpdate new h1', hs]
          have := hInv.hsum
          omega
    · have h2' : FileSystem.checkSpace fs.free_blocks
          ((pyCeilDiv data.length fs.ms.block_size : Nat) : Int) = false :=
        Bool.eq_false_iff.mpr h2
      have h := (store_file_nospace h1' h2').symm.trans heq
      simp only [Option.some.injEq, Prod.mk.injEq] at h
      rw [← h.2]
      exact hInv

/-- Every reachable state satisfies the invariant. -/
theorem reachable_inv {fs : FileSystem} (h : Reachable fs) : FsInv fs := by
  induction h with
  | init bs M hbs => exact inv_init hbs
  | store _ heq ih => exact inv_store ih heq
  | delete _ heq ih => exact inv_delete ih heq

/-! ## The claims -/

/-- C1 (amended): in every reachable state, for every identifier not yet
present in the file table and every payload of length at least 1 whose
required block count `ceil(len(payload)/block_size)` is at most the
total number of free blocks, `store_file` returns `True` and a
subsequent `get_file` returns exactly that payload (in particular for
payload lengths 1, `block_size−1`, `block_size`, `block_size+1`, and
multiples of `block_size`); every stored block holds a full
`block_size`-byte chunk except the final block of the final recorded
range, which holds the payload's tail.  (The original claim also
included payload length 0; it fails there — see the counterexample —
because an empty payload is recorded as an empty range list, which the
lookup in `get_file` treats as falsy, so `get_file` returns `False`
rather than the empty payload.) -/
theorem C1_store_get_roundtrip (fs : FileSystem) (data : Bytes)
    (name : String)
    (hre : Reachable fs)
    (hfresh : tableGet fs.file_table name = none)
    (hlen : 1 ≤ data.length)
    (hcap : pyCeilDiv data.length fs.ms.block_size
      ≤ sumFree fs.free_blocks) :
    ∃ fs', FileSystem.store_file fs data name = some (true, fs') ∧
      FileSystem.get_file fs' name = .ok data ∧
      ∃ new, tableGet fs'.file_table name = some new ∧
        (flattenRanges new).length
          = pyCeilDiv data.length fs.ms.block_size ∧
        (∀ k, k + 1 < pyCeilDiv data.length fs.ms.block_size →
          ∃ b, fs'.ms.memory.getD ((flattenRanges new).getD k 0) none
              = some b ∧ b.length = fs.ms.block_size) ∧
        fs'.ms.memory.getD
            ((flattenRanges new).getD
              (pyCeilDiv data.length fs.ms.block_size - 1) 0) none
          = some (List.drop
              ((pyCeilDiv data.length fs.ms.block_size - 1)
                * fs.ms.block_size) data) := by
  have hInv := reachable_inv hre
  have hfresh' : truthy (tableGet fs.file_table name) = false := by
    rw [hfresh]
    rfl
  have hn1 : 1 ≤ pyCeilDiv data.length fs.ms.block_size :=
    pyCeilDiv_pos hInv.hbs hlen
  obtain ⟨ms', free', new, heqS, hb, hs, hl, hsub, hposn, hsum, hbnd',
      hsep', hflat, hframe, hcont⟩ :=
    store_file_success_spec hInv hfresh' hlen hcap
  refine ⟨_, heqS, get_file_after_store hInv hlen hb hs hsub hflat hcont,
    new, tableGet_tableUpdate_self _ _ _, hflat, ?_, ?_⟩
  · intro k hk
    refine ⟨chunk fs.ms.block_size data k, hcont k (by omega), ?_⟩
    apply chunk_length_full
    have hc : (k + 1) * fs.ms.block_size
        ≤ (pyCeilDiv data.length fs.ms.block_size - 1)
            * fs.ms.block_size :=
      Nat.mul_le_mul_right _ (by omega)
    exact Nat.le_of_lt
      (Nat.lt_of_le_of_lt hc (pyCeilDiv_pred_mul_lt hInv.hbs hlen))
  · have hlast := hcont (pyCeilDiv data.length fs.ms.block_size - 1)
      (by omega)
    rw [hlast]
    have : chunk fs.ms.block_size data
        (pyCeilDiv data.length fs.ms.block_size - 1)
        = List.drop ((pyCeilDiv data.length fs.ms.block_size - 1)
            * fs.ms.block_size) data := by
      apply chunk_last
      have h1 : (pyCeilDiv data.length fs.ms.block_size - 1) + 1
          = pyCeilDiv data.length fs.ms.block_size := by omega
      rw [h1]
      exact le_pyCeilDiv_mul hInv.hbs
    rw [this]

/-- C1 counterexample: the claim as stated includes payload length 0,
where it fails.  In `FileSystem(1, 1)`, storing the empty payload under
a fresh identifier succeeds (the identifier is recorded with an empty
range list), yet `get_file` then returns `False` rather than the empty
payload, because the empty record is falsy. -/
theorem C1_counterexample :
    FileSystem.store_file (FileSystem.init 1 1) [] "a"
      = some (true,
          { ms := { block_size := 1, memory_size := 1, memory := [none] },
            free_blocks := [(0, 1)], file_table := [("a", [])] }) ∧
    FileSystem.get_file
      { ms := { block_size := 1, memory_size := 1, memory := [none] },
        free_blocks := [(0, 1)], file_table := [("a", [])] } "a"
      = .failure ∧
    pyCeilDiv (List.length ([] : Bytes)) 1
      ≤ sumFree (FileSystem.init 1 1).free_blocks ∧
    FileSystem.get_file
      { ms := { block_size := 1, memory_size := 1, memory := [none] },
        free_blocks := [(0, 1)], file_table := [("a", [])] } "a"
      ≠ .ok ([] : Bytes) :=
  ⟨rfl, rfl, by decide, by decide⟩

/-- C1 witness: the round-trip theorem applied at a concrete input
(`FileSystem(2, 3)`, payload `[7]`, identifier `"a"`). -/
theorem C1_witness :
    tableGet (FileSystem.init 2 3).file_table "a" = none ∧
    1 ≤ List.length ([7] : Bytes) ∧
    pyCeilDiv (List.length ([7] : Bytes)) (FileSystem.init 2 3).ms.block_size
      ≤ sumFree (FileSystem.init 2 3).free_blocks ∧
    (∃ fs', FileSystem.store_file (FileSystem.init 2 3) [7] "a"
        = some (true, fs') ∧
      FileSystem.get_file fs' "a" = .ok [7] ∧
      ∃ new, tableGet fs'.file_table "a" = some new ∧
        (flattenRanges new).length
          = pyCeilDiv (List.length ([7] : Bytes))
              (FileSystem.init 2 3).ms.block_size ∧
        (∀ k, k + 1 < pyCeilDiv (List.length ([7] : Bytes))
            (FileSystem.init 2 3).ms.block_size →
          ∃ b, fs'.ms.memory.getD ((flattenRanges new).getD k 0) none
              = some b ∧ b.length = (FileSystem.init 2 3).ms.block_size) ∧
        fs'.ms.memory.getD
            ((flattenRanges new).getD
              (pyCeilDiv (List.length ([7] : Bytes))
                (FileSystem.init 2 3).ms.block_size - 1) 0) none
          = some (List.drop
              ((pyCeilDiv (List.length ([7] : Bytes))
                (FileSystem.init 2 3).ms.block_size - 1)
                * (FileSystem.init 2 3).ms.block_size) [7])) :=
  ⟨rfl, by decide, by decide,
    C1_store_get_roundtrip (FileSystem.init 2 3) [7] "a"
      (Reachable.init 2 3 (by decide)) rfl (by decide) (by decide)⟩

/-- C2 (code bug, evaluated at the failing input): in `FileSystem(1, 1)`,
after successfully storing the one-byte payload `[120]` under `"a"`,
`delete_file "a"` returns `False` instead of `True`: `__empty_blocks`
checks `if not result` on `empty_block`'s status code, and the success
code `0` is the falsy integer, so the helper reports failure right after
clearing the first block.  The file record and the free list are left
untouched (the record still maps `"a"` to `[(0, 1)]`, nothing is
released), and only block 0 has been cleared. -/
theorem C2_delete_bug_at_failing_input :
    FileSystem.store_file (FileSystem.init 1 1) [120] "a"
      = some (true,
          { ms := { block_size := 1, memory_size := 1,
                    memory := [some [120]] },
            free_blocks := [], file_table := [("a", [(0, 1)])] }) ∧
    FileSystem.delete_file
      { ms := { block_size := 1, memory_size := 1, memory := [some [120]] },
        free_blocks := [], file_table := [("a", [(0, 1)])] } "a"
      = (false,
          { ms := { block_size := 1, memory_size := 1, memory := [none] },
            free_blocks := [], file_table := [("a", [(0, 1)])] }) ∧
    FileSystem.get_file
      { ms := { block_size := 1, memory_size := 1, memory := [none] },
        free_blocks := [], file_table := [("a", [(0, 1)])] } "a"
      = .failure :=
  ⟨rfl, rfl, rfl⟩

/-- C3 (amended): for every reachable state and every payload `p1` of
length at least 1, if `store_file(p1, id)` succeeded then a subsequent
`store_file(p2, id)` returns `False` with the state unchanged, and
`get_file(id)` still returns exactly `p1`.  (The original claim, for
arbitrary `p1`, fails at the empty payload — see the counterexample —
because an empty payload is recorded as an empty, falsy range list, so
the duplicate-identifier check does not fire.) -/
theorem C3_no_double_store (fs : FileSystem) (p1 p2 : Bytes) (id : String)
    (fs1 : FileSystem)
    (hre : Reachable fs)
    (hp1 : 1 ≤ p1.length)
    (hstore : FileSystem.store_file fs p1 id = some (true, fs1)) :
    FileSystem.store_file fs1 p2 id = some (false, fs1) ∧
    FileSystem.get_file fs1 id = .ok p1 := by
  have hInv := reachable_inv hre
  by_cases h1 : truthy (tableGet fs.file_table id) = true
  · have h := (store_file_dup h1).symm.trans hstore
    simp at h
  · have h1' : truthy (tableGet fs.file_table id) = false :=
      Bool.eq_false_iff.mpr h1
    by_cases h2 : FileSystem.checkSpace fs.free_blocks
        ((pyCeilDiv p1.length fs.ms.block_size : Nat) : Int) = true
    · have hcap : pyCeilDiv p1.length fs.ms.block_size
          ≤ sumFree fs.free_blocks :=
        ((checkSpace_spec _ _ (fun r hr => (hInv.hfree r hr).1)).mp h2).2
      obtain ⟨ms', free', new, heqS, hb, hs, hl, hsub, hposn, hsum,
          hbnd', hsep', hflat, hframe, hcont⟩ :=
        store_file_success_spec hInv h1' hp1 hcap
      have h := heqS.symm.trans hstore
      simp only [Option.some.injEq, Prod.mk.injEq] at h
      obtain ⟨_, hfs1⟩ := h
      have hn1 : 1 ≤ pyCeilDiv p1.length fs.ms.block_size :=
        pyCeilDiv_pos hInv.hbs hp1
      have hnewne : new ≠ [] := by
        intro h0
        rw [h0] at hflat
        simp [flattenRanges] at hflat
        omega
      constructor
      · apply store_file_dup
        rw [← hfs1]
        show truthy (tableGet (tableUpdate fs.file_table id new) id) = true
        rw [tableGet_tableUpdate_self]
        unfold truthy
        simp [List.isEmpty_iff, hnewne]
      · rw [← hfs1]
        exact get_file_after_store hInv hp1 hb hs hsub hflat hcont
    · have h2' : FileSystem.checkSpace fs.free_blocks
          ((pyCeilDiv p1.length fs.ms.block_size : Nat) : Int) = false :=
        Bool.eq_false_iff.mpr h2
      have h := (store_file_nospace h1' h2').symm.trans hstore
      simp at h

/-- C3 counterexample: the claim as stated fails when `p1` is the empty
payload.  In `FileSystem(1, 1)`, `store_file(b"", "a")` succeeds and
records `"a" ↦ []`; that record is falsy, so a second
`store_file([120], "a")` does not hit the duplicate-identifier check:
it returns `True` and overwrites the record — not `False` with no
mutation as the claim requires. -/
theorem C3_counterexample :
    FileSystem.store_file (FileSystem.init 1 1) [] "a"
      = some (true,
          { ms := { block_size := 1, memory_size := 1, memory := [none] },
            free_blocks := [(0, 1)], file_table := [("a", [])] }) ∧
    FileSystem.store_file
      { ms := { block_size := 1, memory_size := 1, memory := [none] },
        free_blocks := [(0, 1)], file_table := [("a", [])] } [120] "a"
      = some (true,
          { ms := { block_size := 1, memory_size := 1,
                    memory := [some [120]] },
            free_blocks := [], file_table := [("a", [(0, 1)])] }) ∧
    FileSystem.store_file
      { ms := { block_size := 1, memory_size := 1, memory := [none] },
        free_blocks := [(0, 1)], file_table := [("a", [])] } [120] "a"
      ≠ some (false,
          { ms := { block_size := 1, memory_size := 1, memory := [none] },
            free_blocks := [(0, 1)], file_table := [("a", [])] }) :=
  ⟨rfl, rfl, by decide⟩

/-- C3 witness: the no-double-store theorem applied at a concrete input
(`FileSystem(1, 2)`, first payload `[5]`, second payload `[6, 7]`). -/
theorem C3_witness :
    1 ≤ List.length ([5] : Bytes) ∧
    FileSystem.store_file (FileSystem.init 1 2) [5] "a"
      = some (true,
          { ms := { block_size := 1, memory_size := 2,
                    memory := [some [5], none] },
            free_blocks := [(1, 2)], file_table := [("a", [(0, 1)])] }) ∧
    (FileSystem.store_file
        { ms := { block_size := 1, memory_size := 2,
                  memory := [some [5], none] },
          free_blocks := [(1, 2)], file_table := [("a", [(0, 1)])] }
        [6, 7] "a"
      = some (false,
          { ms := { block_size := 1, memory_size := 2,
                    memory := [some [5], none] },
            free_blocks := [(1, 2)], file_table := [("a", [(0, 1)])] }) ∧
    FileSystem.get_file
        { ms := { block_size := 1, memory_size := 2,
                  memory := [some [5], none] },
          free_blocks := [(1, 2)], file_table := [("a", [(0, 1)])] } "a"
      = .ok [5]) :=
  ⟨by decide, rfl,
    C3_no_double_store (FileSystem.init 1 2) [5] [6, 7] "a" _
      (Reachable.init 1 2 (by decide)) (by decide) rfl⟩

/-- C4: in every state reachable by any sequence of `store_file` and
`delete_file` operations from a freshly constructed `FileSystem`, the
sum of the lengths of all free ranges plus the sum of the lengths of
all ranges recorded in the file table equals `memory_size`. -/
theorem C4_capacity_invariant (fs : FileSystem) (hre : Reachable fs) :
    sumFree fs.free_blocks + sumTable fs.file_table
      = fs.ms.memory_size :=
  (reachable_inv hre).hsum

/-- C4 witness: the capacity invariant at a concrete reachable state. -/
theorem C4_witness :
    sumFree (FileSystem.init 4 7).free_blocks
      + sumTable (FileSystem.init 4 7).file_table
      = (FileSystem.init 4 7).ms.memory_size :=
  C4_capacity_invariant (FileSystem.init 4 7) (Reachable.init 4 7 (by decide))

/-- C5: in every reachable state, after each `store_file` or
`delete_file` call completes, the free-range list contains only
pairwise strictly separated ranges: no two free ranges overlap or touch
(`Separated r s` means `r.2 < s.1 ∨ s.2 < r.1`). -/
theorem C5_free_ranges_separated (fs : FileSystem) (hre : Reachable fs) :
    fs.free_blocks.Pairwise Separated :=
  (reachable_inv hre).hsep

/-- C5 witness: separation of the free ranges at a concrete reachable
state. -/
theorem C5_witness : (FileSystem.init 4 7).free_blocks.Pairwise Separated :=
  C5_free_ranges_separated (FileSystem.init 4 7)
    (Reachable.init 4 7 (by decide))

/-- C6: each allocation step inside the store loop scans the free-range
list in its current order and picks the first range whose length is at
least the remaining required block count `n`; when found, it takes
exactly `n` blocks from that range's start and, if the range is longer
than `n`, reinserts the leftover tail as a new free range.  When no
single range is long enough, it instead removes the last range of the
current list from the free set, uses it in full, and recomputes the
remaining block count from the still-unstored payload before
repeating. -/
theorem C6_allocation_step (ms : MemorySystem) (free : List Range)
    (data : Bytes) (n : Nat) (used : List Range)
    (hbs : 1 ≤ ms.block_size)
    (hn : n = pyCeilDiv data.length ms.block_size)
    (hn1 : 1 ≤ n) :
    (∀ fb, free.find? (fun r => decide (n ≤ r.2 - r.1)) = some fb →
      FileSystem.storeLoop ms free data n used
        = some ((FileSystem.storeBlocks ms data fb).1,
            (free.erase fb) ++
              (if fb.2 ≠ fb.1 + n then [(fb.1 + n, fb.2)] else []),
            used ++ [(fb.1, fb.1 + n)])) ∧
    (free.find? (fun r => decide (n ≤ r.2 - r.1)) = none →
      ∀ h : free ≠ [],
        FileSystem.storeLoop ms free data n used
          = FileSystem.storeLoop
              (FileSystem.storeBlocks ms data (free.getLast h)).1
              free.dropLast
              (List.drop (rsize (free.getLast h) * ms.block_size) data)
              (pyCeilDiv
                (List.length (List.drop
                  (rsize (free.getLast h) * ms.block_size) data))
                ms.block_size)
              (used ++ [free.getLast h])) := by
  have hne : data ≠ [] := by
    intro h0
    rw [h0] at hn
    simp [pyCeilDiv_zero] at hn
    omega
  constructor
  · intro fb hfind
    have hsize : n ≤ fb.2 - fb.1 := by
      have h := List.find?_some hfind
      simpa using h
    obtain ⟨ms1, heq, _, _, _, _, _⟩ :=
      storeBlocksAux_inl (fb.2 - fb.1) ms fb.1 fb.1 data hbs hne
        (by rw [← hn]; exact hsize)
    have heq' : FileSystem.storeBlocks ms data fb
        = (ms1, .inl (fb.1, fb.1 + n)) := by
      unfold FileSystem.storeBlocks pyRange
      rw [heq, ← hn]
    rw [heq']
    exact storeLoop_firstfit_eq (by omega) hfind heq'
  · intro hfind h
    have hmlt : rsize (free.getLast h) < n := by
      have h0 := List.find?_eq_none.mp hfind (free.getLast h)
        (List.getLast_mem h)
      unfold rsize
      simpa using h0
    obtain ⟨ms1, heq, hb1, _, _, _, _, _, _⟩ :=
      storeBlocksAux_inr ((free.getLast h).2 - (free.getLast h).1) ms
        (free.getLast h).1 (free.getLast h).1 data hbs hne
        (by rw [← hn]; exact hmlt)
    have heq' : FileSystem.storeBlocks ms data (free.getLast h)
        = (ms1, .inr (List.drop
            (((free.getLast h).2 - (free.getLast h).1) * ms.block_size)
            data)) := by
      unfold FileSystem.storeBlocks pyRange
      rw [heq]
    have hstep :=
      @storeLoop_fallback_eq ms free data n used ms1 _ (by omega) hfind h heq'
    rw [hstep, hb1, heq']
    rfl

/-- C6 witness: the allocation-step theorem applied at a concrete input,
exercising the first-fit branch: with two free ranges `(2,3)` and
`(4,8)` and a 2-block request, the scan skips the too-small `(2,3)`,
takes 2 blocks from the start of `(4,8)` and reinserts the tail
`(6,8)`. -/
theorem C6_witness :
    (2 : Nat) = pyCeilDiv (List.length ([9, 9] : Bytes))
      (⟨1, 10, List.replicate 10 none⟩ : MemorySystem).block_size ∧
    List.find? (fun r => decide (2 ≤ r.2 - r.1))
      ([(2, 3), (4, 8)] : List Range) = some (4, 8) ∧
    FileSystem.storeLoop (⟨1, 10, List.replicate 10 none⟩ : MemorySystem)
        [(2, 3), (4, 8)] [9, 9] 2 []
      = some
          ((FileSystem.storeBlocks
              (⟨1, 10, List.replicate 10 none⟩ : MemorySystem)
              [9, 9] (4, 8)).1,
            (([(2, 3), (4, 8)] : List Range).erase (4, 8)) ++
              (if ((4, 8) : Range).2 ≠ ((4, 8) : Range).1 + 2 then
                [(((4, 8) : Range).1 + 2, ((4, 8) : Range).2)] else []),
            ([] : List Range) ++ [(((4, 8) : Range).1,
              ((4, 8) : Range).1 + 2)]) :=
  ⟨by decide, by decide,
    (C6_allocation_step (⟨1, 10, List.replicate 10 none⟩ : MemorySystem)
      [(2, 3), (4, 8)] [9, 9] 2 [] (by decide) (by decide) (by decide)).1
      (4, 8) (by decide)⟩

/-- C7 (amended): for every free-range list of well-formed ranges
(`start ≤ end`) and every requested block count `n ≥ 0`, the capacity
check returns `True` exactly when the list is non-empty and the total
number of free blocks is at least `n`.  In particular it returns
`False` whenever the total is strictly less than `n` — and also, in the
one case the original claim missed, when the free list is empty and
`n = 0` even though the total (0) is at least `n`. -/
theorem C7_check_space (free : List Range) (n : Nat)
    (hwf : ∀ r ∈ free, r.1 ≤ r.2) :
    FileSystem.checkSpace free (n : Int) = true
      ↔ (free ≠ [] ∧ n ≤ sumFree free) :=
  checkSpace_spec free n hwf

/-- C7 counterexample: with an empty free list and `n = 0`, the total
number of free blocks (0) is at least `n`, yet `__check_space` returns
`False` — the loop body never runs, so the function falls through to
its `False` return.  The original claim required `True` here. -/
theorem C7_counterexample :
    FileSystem.checkSpace ([] : List Range) ((0 : Nat) : Int) = false ∧
    sumFree ([] : List Range) = 0 ∧
    FileSystem.checkSpace ([] : List Range) ((0 : Nat) : Int) ≠ true :=
  ⟨rfl, rfl, by decide⟩

/-- C7 witness: the capacity-check characterization applied at a
concrete input. -/
theorem C7_witness :
    (∀ r ∈ ([(0, 2), (5, 6)] : List Range), r.1 ≤ r.2) ∧
    (FileSystem.checkSpace ([(0, 2), (5, 6)] : List Range)
        ((3 : Nat) : Int) = true
      ↔ (([(0, 2), (5, 6)] : List Range) ≠ [] ∧
          3 ≤ sumFree ([(0, 2), (5, 6)] : List Range))) :=
  ⟨by decide, C7_check_space [(0, 2), (5, 6)] 3 (by decide)⟩

/-- C8: in every reachable state, for every payload whose required
block count exceeds the total number of free blocks, `store_file`
returns `False` and returns the state unchanged — the file table, the
free-range list, and the block memory are untouched, the failure being
reported before any block is written. -/
theorem C8_insufficient_space (fs : FileSystem) (data : Bytes)
    (name : String) (hre : Reachable fs)
    (hcap : sumFree fs.free_blocks
      < pyCeilDiv data.length fs.ms.block_size) :
    FileSystem.store_file fs data name = some (false, fs) := by
  have hInv := reachable_inv hre
  by_cases h1 : truthy (tableGet fs.file_table name) = true
  · exact store_file_dup h1
  · have h1' : truthy (tableGet fs.file_table name) = false :=
      Bool.eq_false_iff.mpr h1
    have h2 : FileSystem.checkSpace fs.free_blocks
        ((pyCeilDiv data.length fs.ms.block_size : Nat) : Int) = false := by
      rw [Bool.eq_false_iff]
      intro h2
      have := ((checkSpace_spec _ _
        (fun r hr => (hInv.hfree r hr).1)).mp h2).2
      omega
    exact store_file_nospace h1' h2

/-- C8 witness: the insufficient-space theorem applied at a concrete
input (a two-block payload against a one-block memory). -/
theorem C8_witness :
    sumFree (FileSystem.init 1 1).free_blocks
      < pyCeilDiv (List.length ([1, 2] : Bytes))
          (FileSystem.init 1 1).ms.block_size ∧
    FileSystem.store_file (FileSystem.init 1 1) [1, 2] "a"
      = some (false, FileSystem.init 1 1) :=
  ⟨by decide,
    C8_insufficient_space (FileSystem.init 1 1) [1, 2] "a"
      (Reachable.init 1 1 (by decide)) (by decide)⟩

/-- C9: for every state and identifier whose file-table record contains
at least one range (a well-formed range, `start < end`, per the data
model) whose start index is a valid block index, `delete_file` returns
`False` and leaves the file table and the free-range list unchanged,
but it does empty the block at the start of the first recorded range,
so a subsequent `get_file` on that same identifier returns `False`. -/
theorem C9_delete_partial_effect (fs : FileSystem) (name : String)
    (r : Range) (rs : List Range)
    (h : tableGet fs.file_table name = some (r :: rs))
    (hr : r.1 < r.2) (hv : r.1 < fs.ms.memory_size) :
    FileSystem.delete_file fs name
      = (false,
          { fs with ms :=
            { fs.ms with memory := fs.ms.memory.set r.1 none } }) ∧
    (FileSystem.delete_file fs name).2.free_blocks = fs.free_blocks ∧
    (FileSystem.delete_file fs name).2.file_table = fs.file_table ∧
    FileSystem.get_file
      { fs with ms := { fs.ms with memory := fs.ms.memory.set r.1 none } }
      name = .failure := by
  have h1 := delete_file_found h hr hv
  refine ⟨h1, ?_, ?_, get_file_after_delete h hr hv⟩
  · rw [h1]
  · rw [h1]

/-- C9 witness: the partial-delete theorem applied at the concrete state
`c9fs`. -/
theorem C9_witness :
    tableGet c9fs.file_table "f" = some ((0, 1) :: []) ∧
    (FileSystem.delete_file c9fs "f" = (false, c9fs2) ∧
    (FileSystem.delete_file c9fs "f").2.free_blocks = c9fs.free_blocks ∧
    (FileSystem.delete_file c9fs "f").2.file_table = c9fs.file_table ∧
    FileSystem.get_file c9fs2 "f" = .failure) :=
  ⟨rfl,
    C9_delete_partial_effect c9fs "f" (0, 1) [] rfl (by decide) (by decide)⟩

/-- C10: for every reachable state and every payload for which the
initial capacity check in `store_file` passes, the store loop executes
without raising: the assertion in the first-fit branch (the
block-writing helper returned a range), the assertion in the fallback
branch (it returned leftover bytes), and the fallback `pop` on a
non-empty list all hold on every iteration, which in this embedding is
exactly the statement that `store_file` returns `some` result rather
than `none`. -/
theorem C10_store_loop_safe (fs : FileSystem) (data : Bytes)
    (name : String) (hre : Reachable fs)
    (hcheck : FileSystem.checkSpace fs.free_blocks
      ((pyCeilDiv data.length fs.ms.block_size : Nat) : Int) = true) :
    (FileSystem.store_file fs data name).isSome = true := by
  have hInv := reachable_inv hre
  by_cases h1 : truthy (tableGet fs.file_table name) = true
  · rw [store_file_dup h1]
    rfl
  · have h1' : truthy (tableGet fs.file_table name) = false :=
      Bool.eq_false_iff.mpr h1
    by_cases h3 : data.length = 0
    · have hn0 : pyCeilDiv data.length fs.ms.block_size = 0 := by
        rw [h3]
        exact pyCeilDiv_zero _
      have hloop0 : FileSystem.storeLoop fs.ms fs.free_blocks data
          (pyCeilDiv data.length fs.ms.block_size) []
          = some (fs.ms, fs.free_blocks, []) := by
        rw [hn0]
        exact storeLoop_zero _ _ _ _
      rw [store_file_eq_of_loop h1' hcheck hloop0]
      rfl
    · have hd1 : 1 ≤ data.length := Nat.one_le_iff_ne_zero.mpr h3
      have hcap : pyCeilDiv data.length fs.ms.block_size
          ≤ sumFree fs.free_blocks :=
        ((checkSpace_spec _ _
          (fun r hr => (hInv.hfree r hr).1)).mp hcheck).2
      obtain ⟨ms', free', new, heqS, _⟩ :=
        store_file_success_spec hInv h1' hd1 hcap
      rw [heqS]
      rfl

/-- C10 witness: the no-crash theorem applied at a concrete input. -/
theorem C10_witness :
    FileSystem.checkSpace (FileSystem.init 1 1).free_blocks
      ((pyCeilDiv (List.length ([7] : Bytes))
        (FileSystem.init 1 1).ms.block_size : Nat) : Int) = true ∧
    (FileSystem.store_file (FileSystem.init 1 1) [7] "a").isSome = true :=
  ⟨by decide,
    C10_store_loop_safe (FileSystem.init 1 1) [7] "a"
      (Reachable.init 1 1 (by decide)) (by decide)⟩
